import Mathlib

/-!
# Middleware chain of `rkusa/web`

A shallow embedding of the middleware toolkit (`app.go`, `helper.go`, and the
earlier `web.go`, `context.go`) together with the properties of its chain
execution engine, its combinators and its response context.

## Embedding

* A Go function body that receives a continuation `next` is a tree
  (`Body`): it returns, it panics, or it calls `next` and resumes with the
  world that call left behind.
* The mutable variable `link` that the closure `next` of `Execute` captures is
  threaded explicitly as a cursor; it only ever moves towards the end of the
  chain, which the type of the cursor records.
* Strings are sequences of their elements (`List Char`); only equality,
  length, concatenation, `HasPrefix`, `TrimPrefix` and `TrimSuffix` are used.
* The chain is a list of middlewares; a second model (`Mem`) keeps the links
  in a memory, by address, and is shown to run as the list does.
* A context carries the hooks it sees as a list; a second model (`Slice`)
  keeps the slice `beforeFuncs` as pointer, length and capacity over backing
  arrays in memory, agrees with the list on one context, and shows what
  `append` does to two contexts that point to one array.
-/

namespace Web

/-- A value handed to `panic`: either one that implements `error` (with its
`Error()` text) or any other value (for instance a plain string). -/
inductive PanicValue where
  | error (msg : List Char)
  | other (s : List Char)
  deriving DecidableEq, Repr

/-- How a call ends: it returns, or a panic unwinds out of it. In both cases
`w` is the world it leaves behind. -/
inductive Outcome (W : Type) where
  | returned (w : W)
  | panicked (v : PanicValue) (w : W)
  deriving DecidableEq, Repr

/-- The behaviour of a function body that was handed a continuation `next`,
started in some world:
* `ret w`: it returns, leaving world `w`;
* `call a w k`: it reaches a call `next(a)` in world `w`; when that call
  returns with world `w1` the body goes on as `k w1`;
* `panic v w`: it panics with `v` in world `w`.
A panic raised below a call of `next` unwinds through the caller (the
middlewares of the repository install no `recover`). -/
inductive Body (A W : Type) where
  | ret (w : W)
  | call (a : A) (w : W) (k : W → Body A W)
  | panic (v : PanicValue) (w : W)

/-- The type `Middleware` of `app.go` (`func(rw, r, next)`) and of `web.go`
(`func(ctx, next)`): `A` is the type of the arguments other than `next`. -/
abbrev Middleware (A W : Type) := A → W → Body A W

/-- An `http.HandlerFunc` (`Next` in `web.go`) used as a continuation, in
continuation-passing form over an answer type `R`: given the arguments, the
world and what to do once it has returned. -/
abbrev Handler (A W R : Type) := A → W → (W → R) → R

/-- Call a function body with the function `nx` as its continuation `next`:
every call `next(a)` the body makes is answered by `nx`, a panic is handed to
`raise`, and `kont` goes on after the body has returned. -/
def invoke {A W R : Type} (raise : PanicValue → W → R) (nx : Handler A W R) :
    Body A W → (W → R) → R
  | .ret w, kont => kont w
  | .call a w k, kont => nx a w (fun w1 => invoke raise nx (k w1) kont)
  | .panic v w, _ => raise v w

/-- A function `done` of the arguments and the world, as a `Handler`: when it
returns the caller goes on, when it panics the panic unwinds. -/
def terminalK {A W : Type} (done : A → W → Outcome W) : Handler A W (Outcome W) :=
  fun x1 w1 ret => match done x1 w1 with
    | .returned w2 => ret w2
    | .panicked v w2 => .panicked v w2

/-- The call `m(rw, r, nx)` of a middleware with an ordinary function as its
continuation. -/
def Middleware.run {A W : Type} (m : Middleware A W) (nx : A → W → Outcome W)
    (a : A) (w : W) : Outcome W :=
  invoke Outcome.panicked (terminalK nx) (m a w) Outcome.returned

/-- The pointer `*link`: `nil` is `[]`, and a pointer to `link{mw, next}` is
`mw :: next`. -/
abbrev Link (A W : Type) := List (Middleware A W)

/-- The struct `app`. -/
structure app (A W : Type) where
  first : Link A W
  last : Link A W

/-- The constructor `New()`: an empty chain. -/
def New {A W : Type} : app A W := ⟨[], []⟩

/-- Method `(*app).Use`: append one link; `last` is the link appended last. -/
def app.Use {A W : Type} (a : app A W) (mw : Middleware A W) : app A W :=
  match a.first with
  | [] => ⟨[mw], [mw]⟩
  | _ :: _ => ⟨a.first ++ [mw], [mw]⟩

/-- The values the captured variable `link` can take while at most `n` links
are still ahead of it. -/
abbrev Cursor (A W : Type) (n : Nat) := { l : Link A W // l.length ≤ n }

/-- Run the body of a middleware inside `Execute`: `next` is the closure of
`Execute`, `link` the current value of the captured cursor and `kont` what
happens after the body has returned. -/
def runBody {A W R : Type} {n : Nat} (raise : PanicValue → W → R)
    (next : Cursor A W n → A → W → (W → Cursor A W n → R) → R) :
    Body A W → Cursor A W n → (W → Cursor A W n → R) → R
  | .ret w, link, kont => kont w link
  | .call a w k, link, kont =>
      next link a w (fun w1 link1 => runBody raise next (k w1) link1 kont)
  | .panic v w, _, _ => raise v w

/-- The closure `next` of `Execute`:
`if link == nil { done(rw, r); return }; current := link; link = current.next;
current.middleware(rw, r, next)`. -/
def next {A W R : Type} (done : Handler A W R) (raise : PanicValue → W → R) :
    (n : Nat) → Cursor A W n → A → W → (W → Cursor A W n → R) → R
  | _, ⟨[], _⟩, a, w, kont => done a w (fun w1 => kont w1 ⟨[], Nat.zero_le _⟩)
  | n + 1, ⟨current :: nxt, h⟩, a, w, kont =>
      runBody raise (next done raise n) (current a w)
        ⟨nxt, Nat.le_of_succ_le_succ h⟩
        (fun w1 link1 => kont w1 ⟨link1.1, Nat.le_succ_of_le link1.2⟩)
  | 0, ⟨_ :: _, h⟩, _, _, _ => absurd h (Nat.not_succ_le_zero _)

/-- Method `(*app).Execute` in continuation-passing form:
`link := a.first; next(rw, r)`. -/
def app.ExecuteK {A W R : Type} (a : app A W) (done : Handler A W R)
    (raise : PanicValue → W → R) (x : A) (w : W) (kont : W → R) : R :=
  next done raise a.first.length ⟨a.first, Nat.le_refl _⟩ x w (fun w1 _ => kont w1)

/-- Method `(*app).Execute(rw, r, done)` called with a terminal handler `done` that is
an ordinary function of the arguments and the world. -/
def app.Execute {A W : Type} (a : app A W) (done : A → W → Outcome W) (x : A) (w : W) :
    Outcome W :=
  a.ExecuteK (terminalK done) .panicked x w .returned

/-- The continuation `next` a middleware was handed, seen from inside its body:
calling it is a `call` node. -/
def nextK {A W : Type} : Handler A W (Body A W) :=
  fun x1 w1 ret => .call x1 w1 ret

/-- Function `Combine(mw...)`: a private chain built with `Use`, executed with the
enclosing continuation `next` as its terminal handler. -/
def Combine {A W : Type} (mw : List (Middleware A W)) : Middleware A W :=
  let combined := mw.foldl app.Use New
  fun x w => combined.ExecuteK nextK .panic x w .ret

/-- The world an outcome leaves behind. -/
def Outcome.world {W : Type} : Outcome W → W
  | .returned w => w
  | .panicked _ w => w

/-- The chain obtained from `New()` by `Use(m1)`, ..., `Use(mn)` in that order. -/
def chainOf {A W : Type} (ms : List (Middleware A W)) : app A W :=
  ms.foldl app.Use New

/-! ## Observing invocations

Which functions run, and in which order, is observed by a log that the
middlewares themselves cannot touch: a middleware over the world `W` is run
over the world `List E × W`, and records an event the moment it is invoked. -/

/-- What the log records: the invocation of the middleware with index `i` of
the chain, or of the terminal handler. -/
inductive Event where
  | mw (i : Nat)
  | terminal
  deriving DecidableEq, Repr

/-- A body over `W` as a body over `List E × W` that leaves the log alone: it
starts with log `t` and resumes with the log its call of `next` left. -/
def liftBody {A W E : Type} : List E → Body A W → Body A (List E × W)
  | t, .ret w => .ret (t, w)
  | t, .call a w k => .call a (t, w) (fun tw => liftBody tw.1 (k tw.2))
  | t, .panic v w => .panic v (t, w)

/-- The middleware `m`, recording `e` when it is invoked. -/
def probe {A W E : Type} (e : E) (m : Middleware A W) : Middleware A (List E × W) :=
  fun a tw => liftBody (tw.1 ++ [e]) (m a tw.2)

/-- The middlewares `ms`, the one at position `j` recording `Event.mw (i + j)`. -/
def probes {A W : Type} : Nat → List (Middleware A W) → List (Middleware A (List Event × W))
  | _, [] => []
  | i, m :: ms => probe (Event.mw i) m :: probes (i + 1) ms

/-- The handler `done`, recording `Event.terminal` when it is invoked. -/
def probeDone {A W : Type} (done : A → W → Outcome W) :
    A → List Event × W → Outcome (List Event × W) :=
  fun a tw => match done a tw.2 with
    | .returned w => .returned (tw.1 ++ [Event.terminal], w)
    | .panicked v w => .panicked v (tw.1 ++ [Event.terminal], w)

/-- A continuation that leaves the log as it finds it. -/
def KeepsLog {W E : Type} (kont : List E × W → Outcome (List E × W)) : Prop :=
  ∀ t w, (kont (t, w)).world.1 = t

/-! ## How often a body calls its continuation -/

/-- The body does not call its continuation. -/
def Body.NoCall {A W : Type} : Body A W → Prop
  | .call _ _ _ => False
  | _ => True

/-- The body calls its continuation exactly once (and is resumed at most once,
should that call panic). -/
def Body.CallsOnce {A W : Type} : Body A W → Prop
  | .call _ _ k => ∀ w1, (k w1).NoCall
  | _ => False

/-- The body calls its continuation zero times or once. -/
def Body.AtMostOnce {A W : Type} : Body A W → Prop
  | .call _ _ k => ∀ w1, (k w1).NoCall
  | _ => True

/-- The middleware never calls its continuation. -/
def Middleware.NoCall {A W : Type} (m : Middleware A W) : Prop :=
  ∀ a w, (m a w).NoCall

/-- The middleware always calls its continuation exactly once. -/
def Middleware.CallsOnce {A W : Type} (m : Middleware A W) : Prop :=
  ∀ a w, (m a w).CallsOnce

/-- The middleware calls its continuation zero times or once. -/
def Middleware.AtMostOnce {A W : Type} (m : Middleware A W) : Prop :=
  ∀ a w, (m a w).AtMostOnce

/-! ## Nested reading of a chain

The reading of a chain in which the continuation handed to a middleware is
"the rest of the chain after it". It is a device of the proofs: `Execute`
agrees with it on the chains whose middlewares call their continuation at most
once (`next_eq_nest`), and not on others. -/

/-- The links from `link` on, each handed the links after it as its continuation. -/
def nest {A W R : Type} (done : Handler A W R) (raise : PanicValue → W → R) :
    Link A W → Handler A W R
  | [], a, w, kont => done a w kont
  | m :: rest, a, w, kont => invoke raise (nest done raise rest) (m a w) kont

/-- A chain on which the cursor of `Execute` and the nested reading agree: up
to the first middleware that never calls its continuation, every middleware
calls it at most once. -/
def Tame {A W : Type} : Link A W → Prop
  | [] => True
  | m :: rest => m.NoCall ∨ (m.AtMostOnce ∧ Tame rest)

/-! ## Sample middlewares

Small middlewares over a counter, after the ones of `app_test.go` and
`helper_test.go`; the theorems are instantiated with them. -/

/-- A middleware that does some work and calls `next` (increment, then `next`). -/
def Sample.proceed : Middleware Unit Nat := fun a w => .call a (w + 1) .ret

/-- A middleware that does some work and returns without calling `next`. -/
def Sample.halt : Middleware Unit Nat := fun _ w => .ret (w + 100)

/-- A terminal handler. -/
def Sample.finish : Unit → Nat → Outcome Nat := fun _ w => .returned (w + 1000)

/-! ## Strings and the request path

Go strings are modelled by the list of their elements. -/

/-- Go's `strings.HasPrefix`: `len(s) >= len(prefix) && s[0:len(prefix)] == prefix`. -/
def HasPrefix (s pre : List Char) : Bool :=
  decide (pre.length ≤ s.length) && (s.take pre.length == pre)

/-- Go's `strings.TrimPrefix`: `if HasPrefix(s, prefix) { return s[len(prefix):] }; return s`. -/
def TrimPrefix (s pre : List Char) : List Char :=
  if HasPrefix s pre then s.drop pre.length else s

/-- Go's `strings.HasSuffix`:
`len(s) >= len(suffix) && s[len(s)-len(suffix):] == suffix`. -/
def HasSuffix (s suf : List Char) : Bool :=
  decide (suf.length ≤ s.length) && (s.drop (s.length - suf.length) == suf)

/-- Go's `strings.TrimSuffix`:
`if HasSuffix(s, suffix) { return s[:len(s)-len(suffix)] }; return s`. -/
def TrimSuffix (s suf : List Char) : List Char :=
  if HasSuffix s suf then s.take (s.length - suf.length) else s

/-- Access to `r.URL.Path` (`ctx.Req().URL.Path` in `web.go`) of the request
among the arguments `a` (a non-nil request with a non-nil URL): reading it in
a world, and the assignment `url.Path = p` for `url := r.URL`. The one law is
that a read after the assignment yields the value assigned. -/
class PathStore (A W : Type) where
  path : A → W → List Char
  setPath : A → List Char → W → W
  path_setPath : ∀ a p w, path a (setPath a p w) = p

/-- The log is no part of the request: a world with a log reads and assigns
the path in its second component. -/
instance instPathStoreLog {A W E : Type} [PathStore A W] : PathStore A (List E × W) where
  path a tw := PathStore.path a tw.2
  setPath a p tw := (tw.1, PathStore.setPath a p tw.2)
  path_setPath a p tw := PathStore.path_setPath a p tw.2

/-- The assignments `Mount` makes before it calls the mounted middleware:
`url.Path = strings.TrimPrefix(url.Path, path)` and then
`if len(url.Path) == 0 { url.Path = "/" }`. -/
def Mount.strip {A W : Type} [PathStore A W] (path : List Char) (a : A) (w : W) : W :=
  let w1 := PathStore.setPath a (TrimPrefix (PathStore.path a w) path) w
  if (PathStore.path a w1).length = 0 then PathStore.setPath a ['/'] w1 else w1

/-- The continuation `Mount` hands to the mounted middleware:
`func(rw, r) { url.Path = before; next(rw, r) }`, where `url` is the URL of the
request `Mount` itself received (arguments `a`). -/
def Mount.restore {A W : Type} [PathStore A W] (a : A) (before : List Char) :
    Handler A W (Body A W) :=
  fun a1 w1 ret => .call a1 (PathStore.setPath a before w1) ret

/-- Function `Mount(path, mw)` of `helper.go` (and of `web.go`). -/
def Mount {A W : Type} [PathStore A W] (path : List Char) (mw : Middleware A W) :
    Middleware A W :=
  let path := TrimSuffix path ['/']
  fun a w =>
    if PathStore.path a w = path ∨ HasPrefix (PathStore.path a w) (path ++ ['/']) = true then
      let before := PathStore.path a w
      invoke .panic (Mount.restore a before) (mw a (Mount.strip path a w)) .ret
    else
      .call a w .ret

/-- The middleware `m`, recording what `obs` reads from the arguments and the
world at the moment it is invoked. -/
def observe {A W E : Type} (obs : A → W → E) (m : Middleware A W) :
    Middleware A (List E × W) :=
  fun a tw => liftBody (tw.1 ++ [obs a tw.2]) (m a tw.2)

/-- The handler `done` over a world with a log, recording nothing. -/
def liftDone {A W E : Type} (done : A → W → Outcome W) :
    A → List E × W → Outcome (List E × W) :=
  fun a tw => match done a tw.2 with
    | .returned w => .returned (tw.1, w)
    | .panicked v w => .panicked v (tw.1, w)

/-- Every call the body makes of its continuation, at whatever depth, is made
with arguments and in a world that satisfy `Q`. -/
def Body.AllCalls {A W : Type} (Q : A → W → Prop) : Body A W → Prop
  | .ret _ => True
  | .call a w k => Q a w ∧ ∀ w1, (k w1).AllCalls Q
  | .panic _ _ => True

/-! ## The statements of the specification about `Mount`, in its words -/

/-- Specification of the match: path `P` invokes `mw` iff `P == prefix` or
`P` starts with `prefix + "/"`. -/
def Spec.mountMatches (pfx P : List Char) : Prop :=
  P = pfx ∨ HasPrefix P (pfx ++ ['/']) = true

instance Spec.mountMatches.decidable (pfx P : List Char) : Decidable (Spec.mountMatches pfx P) :=
  inferInstanceAs (Decidable (_ ∨ _))

/-- Specification of the visible path: `P` with `prefix` removed, or `"/"` if
that would be empty. -/
def Spec.mountStripped (pfx P : List Char) : List Char :=
  if TrimPrefix P pfx = [] then ['/'] else TrimPrefix P pfx

/-- One HTTP exchange reduced to the path of its request and a counter. -/
structure Sample.Exchange where
  urlPath : List Char
  hits : Nat
  deriving DecidableEq, Repr

instance Sample.instPathStore : PathStore Unit Sample.Exchange where
  path _ w := w.urlPath
  setPath _ p w := { w with urlPath := p }
  path_setPath _ _ _ := rfl

/-- A middleware that counts its invocation and returns without calling `next`. -/
def Sample.visit : Middleware Unit Sample.Exchange :=
  fun _ w => .ret { w with hits := w.hits + 1 }

/-- A middleware that counts its invocation and calls `next`. -/
def Sample.forward : Middleware Unit Sample.Exchange :=
  fun a w => .call a { w with hits := w.hits + 1 } .ret

/-- A continuation that returns at once. -/
def Sample.ok : Unit → Sample.Exchange → Outcome Sample.Exchange :=
  fun _ w => .returned w

/-! ## The response context (`context.go`)

Pointers are addresses (`Nat`). The `int` variables that `status` pointers
refer to live in `Heap.cells`; everything else a response writer or a hook can
change is the `store`. A method call on an `http.ResponseWriter` is dispatched
on the pointer by a table of methods (`Writers`). Response writers and hooks
may read the whole heap (a hook can call `Status()`), and write the store. -/

/-- The memory a context works on. -/
structure Heap (S : Type) where
  cells : Nat → Int
  fresh : Nat
  store : S

/-- The type `[]byte`. -/
abbrev Bytes := List Nat

/-- The result `(int, error)` of `Write`; `none` is the `nil` error. -/
abbrev WriteResult := Int × Option (List Char)

/-- The methods `WriteHeader` and `Write` of the `http.ResponseWriter` at a
given address. -/
structure Writers (S : Type) where
  WriteHeader : Nat → Int → Heap S → S
  Write : Nat → Bytes → Heap S → WriteResult × S

/-- The type `BeforeResponseFunc func(http.ResponseWriter)`. -/
abbrev BeforeResponseFunc (S : Type) := Nat → Heap S → S

/-- The struct `context` as one context sees it: the embedded
`gocontext.Context` and `http.ResponseWriter`, the request, the pointer
`status` and the elements of the slice `beforeFuncs`. The slice as the value
it is, with its backing array and its capacity, is `Slice.context`. -/
structure context (S : Type) where
  Context : Nat
  ResponseWriter : Nat
  req : Nat
  status : Nat
  beforeFuncs : List (BeforeResponseFunc S)

/-- The loop `for _, fn := range c.beforeFuncs { fn(c.ResponseWriter) }`. -/
def runBefore {S : Type} : List (BeforeResponseFunc S) → Nat → Heap S → Heap S
  | [], _, h => h
  | fn :: rest, rw, h => runBefore rest rw { h with store := fn rw h }

/-- Method `(*context).WriteHeader`: the hooks, then `*c.status = code`, then
`c.ResponseWriter.WriteHeader(*c.status)`. -/
def context.WriteHeader {S : Type} (ws : Writers S) (c : context S) (code : Int)
    (h : Heap S) : Heap S :=
  let h1 := runBefore c.beforeFuncs c.ResponseWriter h
  let h2 := { h1 with cells := Function.update h1.cells c.status code }
  { h2 with store := ws.WriteHeader c.ResponseWriter (h2.cells c.status) h2 }

/-- Method `(*context).Before`: `c.beforeFuncs = append(c.beforeFuncs, fn)`, on
the elements that `c` sees: the slice assigned to the field of `c` has the old
elements and `fn` behind them (`before_view`). What the `append` does to a
context derived from `c`, which points to the same backing array, is not said
here but in `Slice.context.Before`. -/
def context.Before {S : Type} (c : context S) (fn : BeforeResponseFunc S) : context S :=
  { c with beforeFuncs := c.beforeFuncs ++ [fn] }

/-- Method `(*context).Write`: `if *c.status == 0 { c.WriteHeader(http.StatusOK) }`
and then `return c.ResponseWriter.Write(b)`. -/
def context.Write {S : Type} (ws : Writers S) (c : context S) (b : Bytes) (h : Heap S) :
    WriteResult × Heap S :=
  let h1 := if h.cells c.status = 0 then c.WriteHeader ws 200 h else h
  let r := ws.Write c.ResponseWriter b h1
  (r.1, { h1 with store := r.2 })

/-- Method `(*context).Status`: `return *c.status`. -/
def context.Status {S : Type} (c : context S) (h : Heap S) : Int :=
  h.cells c.status

/-- Method `(*context).Req`. -/
def context.Req {S : Type} (c : context S) : Nat :=
  c.req

/-- Function `CreateContextWith`: `status := 0` is a new variable, and the
slice of hooks is empty. -/
def CreateContextWith {S : Type} (ctx rw r : Nat) (h : Heap S) : context S × Heap S :=
  (⟨ctx, rw, r, h.fresh, []⟩,
   { h with cells := Function.update h.cells h.fresh 0, fresh := h.fresh + 1 })

/-- Function `CreateContext`; the address `0` stands for `gocontext.Background()`. -/
def CreateContext {S : Type} (rw r : Nat) (h : Heap S) : context S × Heap S :=
  CreateContextWith 0 rw r h

/-- A call of `WriteHeader` or of `Write` on a context. -/
inductive Call where
  | WriteHeader (code : Int)
  | Write (b : Bytes)
  deriving DecidableEq, Repr

/-- One call on the context `c`. -/
def context.call {S : Type} (ws : Writers S) (c : context S) (h : Heap S) : Call → Heap S
  | .WriteHeader code => c.WriteHeader ws code h
  | .Write b => (c.Write ws b h).2

/-- A sequence of calls on the context `c`, one after the other. -/
def context.calls {S : Type} (ws : Writers S) (c : context S) (cs : List Call)
    (h : Heap S) : Heap S :=
  cs.foldl (context.call ws c) h

/-- Specification of `Status()`, in its words: the code of the most recent
`WriteHeader` call, where a `Write` made while the status is still `0` counts
as `WriteHeader(200)`; `0` if nothing was written yet. -/
def Spec.status (cs : List Call) : Int :=
  cs.foldl (fun s c => match c with
    | .WriteHeader code => code
    | .Write _ => if s = 0 then 200 else s) 0

/-! ### Observing the calls a context makes

The store gets a log in front; a response writer records each call it
receives and a hook its invocation, both with the address of the writer
concerned and the value the cell at `cell` has at that moment. -/

/-- What the log of a context records. -/
inductive CtxEvent where
  | hook (i : Nat) (rw : Nat) (status : Int)
  | writeHeader (rw : Nat) (code : Int) (status : Int)
  | write (rw : Nat) (b : Bytes) (status : Int)
  deriving DecidableEq, Repr

/-- The heap without the log. -/
def Heap.drop {S E : Type} (h : Heap (List E × S)) : Heap S :=
  ⟨h.cells, h.fresh, h.store.2⟩

/-- The response writers `ws`, recording the calls they receive. -/
def logWriters {S : Type} (cell : Nat) (ws : Writers S) : Writers (List CtxEvent × S) where
  WriteHeader rw code h :=
    (h.store.1 ++ [CtxEvent.writeHeader rw code (h.cells cell)], ws.WriteHeader rw code h.drop)
  Write rw b h :=
    ((ws.Write rw b h.drop).1,
     (h.store.1 ++ [CtxEvent.write rw b (h.cells cell)], (ws.Write rw b h.drop).2))

/-- The hook `fn`, recording its invocation as the hook number `i`. -/
def logHook {S : Type} (cell i : Nat) (fn : BeforeResponseFunc S) :
    BeforeResponseFunc (List CtxEvent × S) :=
  fun rw h => (h.store.1 ++ [CtxEvent.hook i rw (h.cells cell)], fn rw h.drop)

/-- The hooks `fns`, the one at position `j` recording the number `i + j`. -/
def logHooks {S : Type} (cell : Nat) :
    Nat → List (BeforeResponseFunc S) → List (BeforeResponseFunc (List CtxEvent × S))
  | _, [] => []
  | i, fn :: fns => logHook cell i fn :: logHooks cell (i + 1) fns

/-! ## Calls of the continuation after the first

More vocabulary for what a body does with its continuation, and the reading of
a chain one of whose middlewares calls its continuation more than once. -/

/-- The body calls its continuation exactly once and returns after that call
has returned. -/
def Body.Proceeds {A W : Type} : Body A W → Prop
  | .call _ _ k => ∀ w1, ∃ w2, k w1 = .ret w2
  | _ => False

/-- The middleware always calls its continuation once and then returns. -/
def Middleware.Proceeds {A W : Type} (m : Middleware A W) : Prop :=
  ∀ a w, (m a w).Proceeds

/-- The body calls its continuation and, when that call has returned, calls it
a second time and no more. -/
def Body.CallsTwice {A W : Type} : Body A W → Prop
  | .call _ _ k => ∀ w1, (k w1).CallsOnce
  | _ => False

/-- The middleware always calls its continuation exactly twice. -/
def Middleware.CallsTwice {A W : Type} (m : Middleware A W) : Prop :=
  ∀ a w, (m a w).CallsTwice

/-- The reading of a middleware `mk` followed by links `post` that each call
their continuation once: the first call `mk` makes runs `post` and then the
terminal handler, which leaves the cursor at `nil`; every further call of `mk`
therefore runs the terminal handler alone. -/
def afterFirst {A W R : Type} (done : Handler A W R) (raise : PanicValue → W → R)
    (mk : Middleware A W) (post : Link A W) : Handler A W R :=
  fun a w kont => match mk a w with
    | .ret w1 => kont w1
    | .call a1 w1 k1 => nest done raise post a1 w1 (fun w2 => invoke raise done (k1 w2) kont)
    | .panic v w1 => raise v w1

/-- The events of a middleware that records when it is entered and when it
returns, and of the terminal handler. -/
inductive OnionEvent where
  | enter (i : Nat)
  | exit (i : Nat)
  | terminal
  deriving DecidableEq, Repr

/-- A body over `W` as a body over `List E × W` that leaves the log alone until
it returns, and records `x` when it returns. -/
def liftBodyExit {A W E : Type} (x : E) : List E → Body A W → Body A (List E × W)
  | t, .ret w => .ret (t ++ [x], w)
  | t, .call a w k => .call a (t, w) (fun tw => liftBodyExit x tw.1 (k tw.2))
  | t, .panic v w => .panic v (t, w)

/-- The middleware `m`, recording `enter` when it is invoked and `exit` when it
returns. -/
def bracket {A W E : Type} (enter exit : E) (m : Middleware A W) :
    Middleware A (List E × W) :=
  fun a tw => liftBodyExit exit (tw.1 ++ [enter]) (m a tw.2)

/-- The middlewares `ms`, the one at position `j` recording `enter (i + j)` and
`exit (i + j)`. -/
def brackets {A W : Type} :
    Nat → List (Middleware A W) → List (Middleware A (List OnionEvent × W))
  | _, [] => []
  | i, m :: ms => bracket (OnionEvent.enter i) (OnionEvent.exit i) m :: brackets (i + 1) ms

/-- The handler `done`, a function that returns, recording `e` when it is invoked. -/
def markDone {A W E : Type} (e : E) (done : A → W → W) :
    A → List E × W → Outcome (List E × W) :=
  fun a tw => .returned (tw.1 ++ [e], done a tw.2)

/-- A middleware that does some work, calls `next`, and when that has returned
calls `next` once more. -/
def Sample.twice : Middleware Unit Nat :=
  fun a w => .call a (w + 1) (fun w1 => .call a (w1 + 10) .ret)

/-! ### Derived contexts, and what a sequence of calls records -/

/-- Method `(*context).Evolve`:
`&context{ctx, c.ResponseWriter, c.req, c.status, c.beforeFuncs}`. The new
context has the pointer `status` of `c`, and its slice has at this moment the
elements that the slice of `c` has. The two slices point to one backing array;
what a later `Before` on one context does to the hooks of the other is not
said here but in `Slice.context.Evolve` and `Slice.append`. -/
def context.Evolve {S : Type} (c : context S) (ctx : Nat) : context S :=
  ⟨ctx, c.ResponseWriter, c.req, c.status, c.beforeFuncs⟩

/-- Method `(*context).WithValue`; `wv` is `gocontext.WithValue` on addresses.
The hooks are those of the moment, as for `Evolve`. -/
def context.WithValue {S : Type} (wv : Nat → Nat → Nat → Nat) (c : context S)
    (key val : Nat) : context S :=
  ⟨wv c.Context key val, c.ResponseWriter, c.req, c.status, c.beforeFuncs⟩

/-- A sequence of calls of which each is made through `c` (`true`) or through
`d` (`false`). -/
def context.calls2 {S : Type} (ws : Writers S) (c d : context S) (cs : List (Bool × Call))
    (h : Heap S) : Heap S :=
  cs.foldl (fun h x => if x.1 then c.call ws h x.2 else d.call ws h x.2) h

/-- The status after one call made with status `s`. -/
def Spec.statusStep (s : Int) : Call → Int
  | .WriteHeader code => code
  | .Write _ => if s = 0 then 200 else s

/-- What one call on a context with `n` hooks records, made with status `s`:
a header flush, be it a `WriteHeader` call or the first part of a `Write` made
with status `0`, is preceded by the `n` hooks in order. -/
def Spec.callEvents (n rw : Nat) (s : Int) : Call → List CtxEvent
  | .WriteHeader code =>
      (List.range n).map (fun i => CtxEvent.hook i rw s) ++ [CtxEvent.writeHeader rw code code]
  | .Write b =>
      (if s = 0 then
        (List.range n).map (fun i => CtxEvent.hook i rw 0) ++ [CtxEvent.writeHeader rw 200 200]
       else [])
      ++ [CtxEvent.write rw b (if s = 0 then 200 else s)]

/-- What a sequence of calls records, started with status `s`. -/
def Spec.callsEvents (n rw : Nat) : Int → List Call → List CtxEvent
  | _, [] => []
  | s, c :: cs => Spec.callEvents n rw s c ++ Spec.callsEvents n rw (Spec.statusStep s c) cs

/-- The number of the hook an event records, if it records one. -/
def CtxEvent.hookIndex : CtxEvent → Option Nat
  | .hook i _ _ => some i
  | _ => none

/-- Whether the event is a header flush of the underlying writer. -/
def CtxEvent.isFlush : CtxEvent → Bool
  | .writeHeader _ _ _ => true
  | _ => false

/-- Response writers that keep no state. -/
def Sample.nullWriters : Writers Unit where
  WriteHeader _ _ _ := ()
  Write _ b _ := ((b.length, none), ())

/-- A hook without effect. -/
def Sample.idle : BeforeResponseFunc Unit := fun _ _ => ()

/-- A heap with an empty log. -/
def Sample.emptyHeap : Heap (List CtxEvent × Unit) := ⟨fun _ => 0, 0, ([], ())⟩

/-! ## The dispatcher of `app.go`

One HTTP exchange: the `http.ResponseWriter` that `ServeHTTP` receives, the
`responseWriter` it wraps around it, and what `log.Printf` printed. -/

/-- The bytes of a string. -/
def bytesOf (s : List Char) : Bytes := s.map Char.toNat

/-- The `http.ResponseWriter` handed to `ServeHTTP`, after the contract of
`net/http` (and `httptest.ResponseRecorder`): the first `WriteHeader` fixes the
status code, a `Write` before any `WriteHeader` sends the code `200` first,
and the body is what was written. -/
structure Recorder where
  wroteHeader : Bool
  code : Int
  header : List (List Char × List Char)
  body : Bytes
  deriving DecidableEq, Repr

/-- The call `WriteHeader(code)` on the recorder. -/
def Recorder.WriteHeader (code : Int) (rec : Recorder) : Recorder :=
  if rec.wroteHeader then rec else { rec with wroteHeader := true, code := code }

/-- The call `Write(b)` on the recorder. -/
def Recorder.Write (b : Bytes) (rec : Recorder) : Recorder :=
  { (if rec.wroteHeader then rec else rec.WriteHeader 200) with
    body := (if rec.wroteHeader then rec else rec.WriteHeader 200).body ++ b }

/-- The call `Header().Set(k, v)` on the recorder. -/
def Recorder.SetHeader (k v : List Char) (rec : Recorder) : Recorder :=
  { rec with header := (k, v) :: rec.header.filter (fun kv => kv.1 ≠ k) }

/-- The struct `responseWriter` of `app.go`: the embedded writer and the
fields `status` and `written`. -/
structure responseWriter where
  ResponseWriter : Recorder
  status : Int
  written : Bool
  deriving DecidableEq, Repr

/-- Method `(*responseWriter).Write`. -/
def responseWriter.Write (b : Bytes) (rw : responseWriter) : responseWriter :=
  { ResponseWriter := rw.ResponseWriter.Write b
    status := if rw.status = 0 then 200 else rw.status
    written := true }

/-- Method `(*responseWriter).WriteHeader`. -/
def responseWriter.WriteHeader (code : Int) (rw : responseWriter) : responseWriter :=
  { ResponseWriter := rw.ResponseWriter.WriteHeader code
    status := code
    written := true }

/-- Method `(*responseWriter).Written`. -/
def responseWriter.Written (rw : responseWriter) : Bool := rw.written

/-- The state of one exchange handled by `app.go`: the `responseWriter` that
`ServeHTTP` makes, the lines printed by `log.Printf`, and everything else. -/
structure Exchange (X : Type) where
  rw : responseWriter
  logged : List (List Char)
  ext : X
  deriving DecidableEq, Repr

/-- The `http.ResponseWriter` a function is handed: the `*responseWriter` of
`ServeHTTP`, or the writer underneath it. -/
inductive WriterRef where
  | wrapped
  | raw
  deriving DecidableEq, Repr

/-- The arguments `(rw, r)` of a middleware of `app.go`. -/
structure Args where
  rw : WriterRef
  r : Nat
  deriving DecidableEq, Repr

/-- The call `rw.WriteHeader(code)`, dispatched on the writer. -/
def Exchange.WriteHeader {X : Type} (ref : WriterRef) (code : Int) (w : Exchange X) :
    Exchange X :=
  match ref with
  | .wrapped => { w with rw := w.rw.WriteHeader code }
  | .raw => { w with rw := { w.rw with ResponseWriter := w.rw.ResponseWriter.WriteHeader code } }

/-- The call `rw.Write(b)`, dispatched on the writer. -/
def Exchange.Write {X : Type} (ref : WriterRef) (b : Bytes) (w : Exchange X) : Exchange X :=
  match ref with
  | .wrapped => { w with rw := w.rw.Write b }
  | .raw => { w with rw := { w.rw with ResponseWriter := w.rw.ResponseWriter.Write b } }

/-- The call `rw.Header().Set(k, v)`; `responseWriter` has no `Header` of its
own, so both writers reach the header map of the recorder. -/
def Exchange.SetHeader {X : Type} (k v : List Char) (w : Exchange X) : Exchange X :=
  { w with rw := { w.rw with ResponseWriter := w.rw.ResponseWriter.SetHeader k v } }

/-- Go's `http.StatusText(http.StatusInternalServerError)`. -/
def StatusText500 : List Char := "Internal Server Error".toList

/-- Go's `http.Error(w, error, code)`: two headers, `w.WriteHeader(code)`, and
`fmt.Fprintln(w, error)`. -/
def httpError {X : Type} (ref : WriterRef) (msg : List Char) (code : Int) (w : Exchange X) :
    Exchange X :=
  Exchange.Write ref (bytesOf (msg ++ ['\n']))
    (Exchange.WriteHeader ref code
      (Exchange.SetHeader "X-Content-Type-Options".toList "nosniff".toList
        (Exchange.SetHeader "Content-Type".toList "text/plain; charset=utf-8".toList w)))

/-- Go's `http.NotFound(w, r)`: `Error(w, "404 page not found", StatusNotFound)`. -/
def httpNotFound {X : Type} (a : Args) (w : Exchange X) : Exchange X :=
  httpError a.rw "404 page not found".toList 404 w

/-- The terminal handler of `ServeHTTP`:
`func(rw http.ResponseWriter, r *http.Request) { http.NotFound(rw, r) }`. -/
def notFoundHandler {X : Type} : Args → Exchange X → Outcome (Exchange X) :=
  fun x w => .returned (httpNotFound x w)

/-- Method `(*app).handleError` of `app.go`; `none` is the `nil` error and
`some msg` an error whose `Error()` is `msg`. -/
def app.handleError {X : Type} (err : Option (List Char)) (w : Exchange X) : Exchange X :=
  match err with
  | none => w
  | some msg =>
      { httpError .wrapped StatusText500 500 w with
        logged := (httpError .wrapped StatusText500 500 w).logged
          ++ ["PANIC: ".toList ++ msg] }

/-- The run-time panic of the type assertion `err.(error)` on a value that
does not implement `error`. -/
def typeAssertionPanic : PanicValue :=
  .error "interface conversion: value is not error: missing method Error".toList

/-- Method `(*app).ServeHTTP` of `app.go`. The goroutine runs `Execute` and
sends on `c`, and `ServeHTTP` waits for that value: `nil` after a return, and
`err.(error)` after a panic. When the panic value does not implement `error`
the type assertion panics inside the deferred function, nothing is sent, and
that panic leaves the goroutine unrecovered (`panicked`). -/
def app.ServeHTTP {X : Type} (a : app Args (Exchange X)) (r : Nat) (w : Exchange X) :
    Outcome (Exchange X) :=
  match a.Execute notFoundHandler ⟨.wrapped, r⟩
      { w with rw := ⟨w.rw.ResponseWriter, 0, false⟩ } with
  | .returned w1 => .returned (app.handleError none w1)
  | .panicked (.error msg) w1 => .returned (app.handleError (some msg) w1)
  | .panicked (.other _) w1 => .panicked typeAssertionPanic w1

/-- A body over `X` as a body over the exchange that leaves the response
writer and the log of the exchange alone. -/
def quietBody {A X : Type} : Exchange X → Body A X → Body A (Exchange X)
  | w, .ret x => .ret { w with ext := x }
  | w, .call a x k => .call a { w with ext := x } (fun w1 => quietBody w1 (k w1.ext))
  | w, .panic v x => .panic v { w with ext := x }

/-- A middleware that writes nothing to the response. -/
def quiet {A X : Type} (m : Middleware A X) : Middleware A (Exchange X) :=
  fun a w => quietBody w (m a w.ext)

/-- An exchange that has not started: nothing written, nothing logged. -/
def Sample.fresh : Web.Exchange Nat :=
  ⟨⟨⟨false, 0, [], []⟩, 0, false⟩, [], 0⟩

/-- The first middleware of `TestServeHTTP`: `rw.Header().Set("X-Foo", "bar")`
and `next(rw, r)`. -/
def Sample.setFoo : Middleware Args (Web.Exchange Nat) :=
  fun a w => .call a (Web.Exchange.SetHeader "X-Foo".toList "bar".toList w) .ret

/-- The second middleware of `TestServeHTTP`: `rw.Write([]byte("foobar"))`. -/
def Sample.writeFoobar : Middleware Args (Web.Exchange Nat) :=
  fun a w => .ret (Web.Exchange.Write a.rw (bytesOf "foobar".toList) w)

/-- A middleware that panics with the value `v`. -/
def Sample.fail (v : PanicValue) : Middleware Args (Web.Exchange Nat) :=
  fun _ w => .panic v w

/-- What `http.Error(w, error, code)` leaves on the recorder, through either
writer. -/
def Recorder.Error (msg : List Char) (code : Int) (rec : Recorder) : Recorder :=
  Recorder.Write (bytesOf (msg ++ ['\n']))
    (Recorder.WriteHeader code
      (Recorder.SetHeader "X-Content-Type-Options".toList "nosniff".toList
        (Recorder.SetHeader "Content-Type".toList "text/plain; charset=utf-8".toList rec)))

/-- A middleware over a counter that calls `next` with the arguments it got. -/
def Sample.pass : Middleware Args Nat := fun a x => .call a (x + 1) .ret

/-! ## The dispatcher of `web.go`

The earlier dispatcher runs the chain on a `Context` made by
`CreateContextWith` around the writer it received; its middlewares have the
type `func(ctx Context, next Next)`. -/

/-- The store of one exchange handled by `web.go`: the `http.ResponseWriter`
that `ServeHTTP` received, the lines printed by the logger, and everything
else. -/
structure WebStore (X : Type) where
  writer : Recorder
  logged : List (List Char)
  ext : X

/-- The methods of the writer that `ServeHTTP` received: those of the recorder. -/
def recWriters {X : Type} : Writers (WebStore X) where
  WriteHeader _ code h := { h.store with writer := h.store.writer.WriteHeader code }
  Write _ b h := ((b.length, none), { h.store with writer := h.store.writer.Write b })

/-- Go's `http.Error(ctx, error, code)` on a `Context`: two headers set on
`ctx.Header()`, which is the header map of the embedded writer, then
`ctx.WriteHeader(code)` and `fmt.Fprintln(ctx, error)`. -/
def WebGo.httpError {X : Type} (c : context (WebStore X)) (msg : List Char) (code : Int)
    (h : Heap (WebStore X)) : Heap (WebStore X) :=
  (c.Write recWriters (bytesOf (msg ++ ['\n']))
    (c.WriteHeader recWriters code
      ⟨h.cells, h.fresh,
        ⟨Recorder.SetHeader "X-Content-Type-Options".toList "nosniff".toList
          (Recorder.SetHeader "Content-Type".toList "text/plain; charset=utf-8".toList
            h.store.writer),
         h.store.logged, h.store.ext⟩⟩)).2

/-- The text `errors.Wrap(v, 0).Error()` of `go-errors` for a recovered panic
value: `Error()` of a value that implements `error`, and the `%v` rendering of
any other value (for a string, the string). -/
def PanicValue.text : PanicValue → List Char
  | .error msg => msg
  | .other s => s

/-- Function `handleError` of `web.go`: `http.Error(rw, err.Error(), 500)` on
the writer that `ServeHTTP` received, and a line of the logger (the stack
trace that follows it is left out). -/
def WebGo.handleError {X : Type} (err : Option (List Char)) (h : Heap (WebStore X)) :
    Heap (WebStore X) :=
  match err with
  | none => h
  | some msg =>
      { h with store :=
          { h.store with
            writer := Recorder.Error msg 500 h.store.writer
            logged := h.store.logged ++ ["PANIC: ".toList ++ msg] } }

/-- Method `(*app).ServeHTTP` of `web.go`. The goroutine sends `nil` after a
return and `errors.Wrap(err, 0)` after a panic; the context `ctx` that
`select` also waits on is cancelled only when `ServeHTTP` returns, so the
value of the goroutine is the one received. -/
def WebGo.ServeHTTP {X : Type} (a : app (context (WebStore X)) (Heap (WebStore X)))
    (cancelable rw r : Nat) (h : Heap (WebStore X)) : Outcome (Heap (WebStore X)) :=
  match a.Execute
      (fun c h2 => .returned (WebGo.httpError c "404 page not found".toList 404 h2))
      (CreateContextWith cancelable rw r h).1 (CreateContextWith cancelable rw r h).2 with
  | .returned h2 => .returned (WebGo.handleError none h2)
  | .panicked v h2 => .returned (WebGo.handleError (some v.text) h2)

/-- A body over `X` as the body of a middleware of `web.go` that writes
nothing and leaves the status alone; the context it hands to `next` is the one
of the call. -/
def WebGo.quietBody {X : Type} :
    Heap (WebStore X) → Body (context (WebStore X)) X →
      Body (context (WebStore X)) (Heap (WebStore X))
  | h, .ret x => .ret ⟨h.cells, h.fresh, ⟨h.store.writer, h.store.logged, x⟩⟩
  | h, .call c x k =>
      .call c ⟨h.cells, h.fresh, ⟨h.store.writer, h.store.logged, x⟩⟩
        (fun h1 => WebGo.quietBody h1 (k h1.store.ext))
  | h, .panic v x => .panic v ⟨h.cells, h.fresh, ⟨h.store.writer, h.store.logged, x⟩⟩

/-- A middleware of `web.go` that writes nothing to the response. -/
def WebGo.quiet {X : Type} (m : Middleware (context (WebStore X)) X) :
    Middleware (context (WebStore X)) (Heap (WebStore X)) :=
  fun c h => WebGo.quietBody h (m c h.store.ext)

/-- The context handed to `next` has no `Before` hook registered. -/
def Middleware.PassesPlain {X : Type} (m : Middleware (context (WebStore X)) X) : Prop :=
  ∀ c x, c.beforeFuncs = [] → (m c x).AllCalls (fun c1 _ => c1.beforeFuncs = [])

/-- A middleware of `web.go` over a counter that calls `next(ctx)`. -/
def Sample.webPass : Middleware (context (WebStore Nat)) Nat :=
  fun c x => .call c (x + 1) .ret

/-- A heap of `web.go` on which nothing has happened yet. -/
def Sample.webHeap : Heap (WebStore Nat) := ⟨fun _ => 0, 0, ⟨⟨false, 0, [], []⟩, [], 0⟩⟩

/-- A middleware of `web.go` that panics with the value `v`. -/
def Sample.webFail (v : PanicValue) :
    Middleware (context (WebStore Nat)) (Heap (WebStore Nat)) :=
  fun _ h => .panic v h

/-! ## The adapters of `helper.go`

A foreign handler (`http.Handler`, `http.HandlerFunc`) is a function of the
arguments `(rw, r)` and the world that returns or panics. -/

/-- Function `Handler` of `helper.go`: `handler.ServeHTTP(rw, r)`, and then
`if rw, ok := rw.(defaultResponseWriter); ok && !rw.Written() { next(rw, r) }`.
The type `defaultResponseWriter` is declared in no file of the package, so the
type assertion together with `Written()` is the parameter `asDefault`: `none`
when the assertion fails, and `some b` when it holds and `rw.Written()` is `b`. -/
def helper.Handler {A W : Type} (asDefault : A → W → Option Bool)
    (handler : A → W → Outcome W) : Middleware A W :=
  fun a w => match handler a w with
    | .returned w1 =>
        match asDefault a w1 with
        | some false => .call a w1 .ret
        | _ => .ret w1
    | .panicked v w1 => .panic v w1

/-- Function `Func` of `helper.go`: `fn(rw, r)`, and then the same test. -/
def helper.Func {A W : Type} (asDefault : A → W → Option Bool)
    (fn : A → W → Outcome W) : Middleware A W :=
  fun a w => match fn a w with
    | .returned w1 =>
        match asDefault a w1 with
        | some false => .call a w1 .ret
        | _ => .ret w1
    | .panicked v w1 => .panic v w1

/-- Method `(*app).UseHandler`: `a.Use(Handler(handler))`. -/
def app.UseHandler {A W : Type} (asDefault : A → W → Option Bool) (a : app A W)
    (handler : A → W → Outcome W) : app A W :=
  a.Use (helper.Handler asDefault handler)

/-- Method `(*app).UseFunc`: `a.Use(Func(fn))`. -/
def app.UseFunc {A W : Type} (asDefault : A → W → Option Bool) (a : app A W)
    (fn : A → W → Outcome W) : app A W :=
  a.Use (helper.Func asDefault fn)

/-- Modelled from the spec: the assertion `rw.(defaultResponseWriter)` followed
by `Written()`, for the writers of `app.go`. The type is declared in no file of
the package; the specification speaks of an explicit capability to ask whether
anything has been written, which the `*responseWriter` of `ServeHTTP` has
(method `Written`) and the writer underneath it has not. -/
def Exchange.asDefault {X : Type} (a : Args) (w : Exchange X) : Option Bool :=
  match a.rw with
  | .wrapped => some w.rw.Written
  | .raw => none

/-- Method `(*app).Handler` of `web.go`: `handler.ServeHTTP(ctx, ctx.Req())`
and `next(ctx)`. -/
def WebGo.Handler {S : Type} (handler : context S → Nat → Heap S → Outcome (Heap S)) :
    Middleware (context S) (Heap S) :=
  fun ctx h => match handler ctx ctx.Req h with
    | .returned h1 => .call ctx h1 .ret
    | .panicked v h1 => .panic v h1

/-- The foreign handler `h`, recording `e` when it is invoked; the log is out
of its reach. -/
def probeHandler {A W E : Type} (e : E) (h : A → W → Outcome W) :
    A → List E × W → Outcome (List E × W) :=
  fun a tw => match h a tw.2 with
    | .returned w => .returned (tw.1 ++ [e], w)
    | .panicked v w => .panicked v (tw.1 ++ [e], w)

/-- A call that a foreign handler makes on the writer it was handed. -/
inductive WriterOp where
  | WriteHeader (code : Int)
  | Write (b : Bytes)
  | SetHeader (k v : List Char)
  deriving DecidableEq, Repr

/-- The call is a `Write` or a `WriteHeader`. -/
def WriterOp.writes : WriterOp → Bool
  | .WriteHeader _ => true
  | .Write _ => true
  | .SetHeader _ _ => false

/-- One call on the writer `ref`. -/
def Exchange.op {X : Type} (ref : WriterRef) (w : Exchange X) : WriterOp → Exchange X
  | .WriteHeader code => Exchange.WriteHeader ref code w
  | .Write b => Exchange.Write ref b w
  | .SetHeader k v => Exchange.SetHeader k v w

/-- The foreign handler that makes the calls `ops` on its writer and returns. -/
def handlerOf {X : Type} (ops : List WriterOp) : Args → Exchange X → Outcome (Exchange X) :=
  fun a w => .returned (ops.foldl (Exchange.op a.rw) w)

/-- A terminal handler that counts its invocations in the field `ext`. -/
def Sample.count : Args → Web.Exchange Nat → Outcome (Web.Exchange Nat) :=
  fun _ w => .returned { w with ext := w.ext + 1 }

/-! ## The chain in memory

`Use` assigns to fields of structs that are reached through pointers, and
`Execute` reads them. Here the links live in a memory, by address. A function
value stored in a link is the index of a middleware in a table `code`, and a
middleware runs over the memory together with the rest of the world: one that
has captured the `app` can read and write it. -/

/-- The struct `link` in memory: the function value `middleware`, as an index
of the table of middlewares, and the pointer `next` (`none` is `nil`). -/
structure Mem.link where
  middleware : Nat
  next : Option Nat
  deriving DecidableEq, Repr

/-- The memory of one `app`: the links by address, the address that the next
`&link{...}` gets, and the fields `first` and `last` of the struct `app`. -/
structure Mem.Store where
  links : Nat → Mem.link
  fresh : Nat
  first : Option Nat
  last : Option Nat

/-- The constructor `New()`: `&app{nil, nil}`, and no link. -/
def Mem.New : Mem.Store := ⟨fun _ => ⟨0, none⟩, 0, none, none⟩

/-- Method `(*app).Use` on the memory. When `a.first` is `nil`, both fields
point to a new link; otherwise `a.last.next = &link{mw, nil}` and
`a.last = a.last.next`. The result is `none` when `a.last` is `nil` there: Go
panics on the nil pointer. -/
def Mem.Use (s : Mem.Store) (mw : Nat) : Option Mem.Store :=
  match s.first with
  | none =>
      some ⟨Function.update s.links s.fresh ⟨mw, none⟩, s.fresh + 1, some s.fresh, some s.fresh⟩
  | some first =>
      match s.last with
      | none => none
      | some last =>
          some ⟨Function.update (Function.update s.links s.fresh ⟨mw, none⟩) last
                  ⟨(Function.update s.links s.fresh ⟨mw, none⟩ last).middleware, some s.fresh⟩,
                s.fresh + 1, some first, some s.fresh⟩

/-- The memory after `New()` and `Use` of the middlewares `ids`, in that order. -/
def Mem.chainOf (ids : List Nat) : Option Mem.Store :=
  ids.foldlM Mem.Use Mem.New

/-- Run the body of a middleware inside `Execute` on the memory: `next` is the
closure of `Execute` and `link` the value of the captured variable; the result
is how the body ends and the value of `link` then, or `none` when `next` gave
none. -/
def Mem.runBody {A W : Type}
    (next : Option Nat → A → Mem.Store × W → Option (Outcome (Mem.Store × W) × Option Nat)) :
    Body A (Mem.Store × W) → Option Nat → Option (Outcome (Mem.Store × W) × Option Nat)
  | .ret sw, link => some (.returned sw, link)
  | .call a sw k, link =>
      match next link a sw with
      | some (.returned sw1, link1) => Mem.runBody next (k sw1) link1
      | some (.panicked v sw1, link1) => some (.panicked v sw1, link1)
      | none => none
  | .panic v sw, link => some (.panicked v sw, link)

/-- The closure `next` of `Execute` on the memory:
`if link == nil { done(rw, r); return }; current := link; link = current.next;
current.middleware(rw, r, next)`, where `current.next` and
`current.middleware` are read from the memory of the moment. The first
argument bounds how deep the invocations of middlewares nest; the result is
`none` when the bound is used up, as on a chain that runs in a circle. -/
def Mem.next {A W : Type} (code : Nat → Middleware A (Mem.Store × W))
    (done : A → Mem.Store × W → Outcome (Mem.Store × W)) :
    Nat → Option Nat → A → Mem.Store × W → Option (Outcome (Mem.Store × W) × Option Nat)
  | _, none, a, sw => some (done a sw, none)
  | 0, some _, _, _ => none
  | n + 1, some current, a, sw =>
      Mem.runBody (Mem.next code done n) (code (sw.1.links current).middleware a sw)
        (sw.1.links current).next

/-- Method `(*app).Execute` on the memory: `link := a.first; next(rw, r)`. -/
def Mem.Execute {A W : Type} (code : Nat → Middleware A (Mem.Store × W))
    (done : A → Mem.Store × W → Outcome (Mem.Store × W)) (depth : Nat) (a : A)
    (sw : Mem.Store × W) : Option (Outcome (Mem.Store × W)) :=
  (Mem.next code done depth sw.1.first a sw).map Prod.fst

/-- The body leaves the memory `s` of the chain as it is: wherever it stops
the memory is `s`, provided each call of `next` returned with `s`. -/
def Body.KeepsMem {A W : Type} (s : Mem.Store) : Body A (Mem.Store × W) → Prop
  | .ret sw => sw.1 = s
  | .call _ sw k => sw.1 = s ∧ ∀ w1, (k (s, w1)).KeepsMem s
  | .panic _ sw => sw.1 = s

/-- The memory that `New()` and `Use` of the middlewares `ids` leave: link `i`
holds `ids[i]` and points to link `i + 1`, the last link to `nil`. -/
def Mem.layout (ids : List Nat) : Mem.Store where
  links i := ⟨ids.getD i 0, if i + 1 < ids.length then some (i + 1) else none⟩
  fresh := ids.length
  first := if ids.length = 0 then none else some 0
  last := if ids.length = 0 then none else some (ids.length - 1)

/-- The pointer to the link at position `q` of a chain of `n` links. -/
def Mem.ptr (n q : Nat) : Option Nat :=
  if q < n then some q else none

/-- A table of middlewares over a log: middleware `i` records its invocation
and calls `next`. -/
def Sample.memCode : Nat → Middleware Unit (Mem.Store × List Event) :=
  fun i a sw => .call a (sw.1, sw.2 ++ [Event.mw i]) .ret

/-- A terminal handler over a log that records its invocation. -/
def Sample.memDone : Unit → Mem.Store × List Event → Outcome (Mem.Store × List Event) :=
  fun _ sw => .returned (sw.1, sw.2 ++ [Event.terminal])

/-! ## The slice of hooks in memory

The field `beforeFuncs` is a slice: a pointer to a backing array, a length and
a capacity. `Evolve` and `WithValue` copy these three words, so the new
context and the old one point to the same array, and `append` writes into that
array while the capacity allows. Here the backing arrays live in a memory of
their own, which the hooks, being handed only the response writer, do not
reach. -/

/-- A slice value `[]BeforeResponseFunc`: the address of its backing array,
its length and its capacity. -/
structure Slice where
  ptr : Nat
  len : Nat
  cap : Nat
  deriving DecidableEq, Repr

/-- The memory of backing arrays: the element at an index of the array at an
address (`none` is the nil function value of a slot never assigned), and the
address that the next array gets. -/
structure Arrays (S : Type) where
  slot : Nat → Nat → Option (BeforeResponseFunc S)
  fresh : Nat

/-- Go's `make([]BeforeResponseFunc, 0)`: length and capacity `0`; no element
is ever read or written through this value, so it needs no array. -/
def Slice.make0 : Slice := ⟨0, 0, 0⟩

/-- How the `gc` runtime grows a full slice of fewer than 256 elements by one
element: the capacity doubles (and becomes `1` from `0`, see `Slice.append`). -/
def Slice.double (cap : Nat) : Nat := 2 * cap

/-- Go's `append(s, fn)`. While the length is below the capacity the element
is written into the backing array of `s`, behind its last element, and the
result points to the same array. Otherwise a new array is allocated, of a
capacity `grow s.cap` chosen by the runtime and at least `s.len + 1`, the
elements of `s` are copied into it and `fn` is written behind them. -/
def Slice.append {S : Type} (grow : Nat → Nat) (m : Arrays S) (s : Slice)
    (fn : BeforeResponseFunc S) : Slice × Arrays S :=
  if s.len < s.cap then
    (⟨s.ptr, s.len + 1, s.cap⟩,
     ⟨fun p i => if p = s.ptr ∧ i = s.len then some fn else m.slot p i, m.fresh⟩)
  else
    (⟨m.fresh, s.len + 1, max (grow s.cap) (s.len + 1)⟩,
     ⟨fun p i =>
        if p = m.fresh then
          (if i < s.len then m.slot s.ptr i else if i = s.len then some fn else none)
        else m.slot p i,
      m.fresh + 1⟩)

/-- The elements `s[0], ..., s[len(s)-1]` of a slice, read from the memory. -/
def Slice.elems {S : Type} (m : Arrays S) (s : Slice) : List (Option (BeforeResponseFunc S)) :=
  (List.range s.len).map (m.slot s.ptr)

/-- The struct `context` with the field `beforeFuncs` as the slice value it is. -/
structure Slice.context where
  Context : Nat
  ResponseWriter : Nat
  req : Nat
  status : Nat
  beforeFuncs : Slice
  deriving DecidableEq, Repr

/-- Function `CreateContextWith`, with `beforeFuncs: make([]BeforeResponseFunc, 0)`. -/
def Slice.CreateContextWith {S : Type} (ctx rw r : Nat) (h : Heap S) : Slice.context × Heap S :=
  (⟨ctx, rw, r, h.fresh, Slice.make0⟩,
   { h with cells := Function.update h.cells h.fresh 0, fresh := h.fresh + 1 })

/-- Method `(*context).Before`: `c.beforeFuncs = append(c.beforeFuncs, fn)`. The
field of `c` gets the new slice value; the array it points to may have been
written. -/
def Slice.context.Before {S : Type} (grow : Nat → Nat) (c : Slice.context)
    (fn : BeforeResponseFunc S) (m : Arrays S) : Slice.context × Arrays S :=
  ({ c with beforeFuncs := (Slice.append grow m c.beforeFuncs fn).1 },
   (Slice.append grow m c.beforeFuncs fn).2)

/-- Method `(*context).Evolve`:
`&context{ctx, c.ResponseWriter, c.req, c.status, c.beforeFuncs}`; the slice
value is copied, the array is not. -/
def Slice.context.Evolve (c : Slice.context) (ctx : Nat) : Slice.context :=
  ⟨ctx, c.ResponseWriter, c.req, c.status, c.beforeFuncs⟩

/-- Method `(*context).WithValue`; `wv` is `gocontext.WithValue` on addresses. -/
def Slice.context.WithValue (wv : Nat → Nat → Nat → Nat) (c : Slice.context)
    (key val : Nat) : Slice.context :=
  ⟨wv c.Context key val, c.ResponseWriter, c.req, c.status, c.beforeFuncs⟩

/-- The loop `for _, fn := range c.beforeFuncs { fn(c.ResponseWriter) }` over
the elements read from memory; `none` when an element is the nil function
value, whose call panics. -/
def Slice.runBefore {S : Type} :
    List (Option (BeforeResponseFunc S)) → Nat → Heap S → Option (Heap S)
  | [], _, h => some h
  | none :: _, _, _ => none
  | some fn :: rest, rw, h => Slice.runBefore rest rw { h with store := fn rw h }

/-- Method `(*context).WriteHeader` with the hooks read from the memory: the
hooks, then `*c.status = code`, then `c.ResponseWriter.WriteHeader(*c.status)`. -/
def Slice.context.WriteHeader {S : Type} (ws : Writers S) (m : Arrays S) (c : Slice.context)
    (code : Int) (h : Heap S) : Option (Heap S) :=
  match Slice.runBefore (Slice.elems m c.beforeFuncs) c.ResponseWriter h with
  | none => none
  | some h1 =>
      let h2 := { h1 with cells := Function.update h1.cells c.status code }
      some { h2 with store := ws.WriteHeader c.ResponseWriter (h2.cells c.status) h2 }

/-- The hooks a context has, as the context of the list model: the elements
of its slice at this moment. -/
def Slice.context.view {S : Type} (c : Slice.context) (fns : List (BeforeResponseFunc S)) :
    Web.context S :=
  ⟨c.Context, c.ResponseWriter, c.req, c.status, fns⟩

/-- Memory without any backing array. -/
def Sample.noArrays : Arrays (List CtxEvent × Unit) := ⟨fun _ _ => none, 0⟩

/-- The hook number `i`, which records its invocation. -/
def Sample.hook (i : Nat) : BeforeResponseFunc (List CtxEvent × Unit) :=
  logHook 0 i Sample.idle

/-- Register the hooks number `i`, `i + 1`, ... on `c`, `n` of them. -/
def Sample.register (c : Slice.context) (m : Arrays (List CtxEvent × Unit)) :
    Nat → Nat → Slice.context × Arrays (List CtxEvent × Unit)
  | _, 0 => (c, m)
  | i, n + 1 =>
      Sample.register (c.Before Slice.double (Sample.hook i) m).1
        (c.Before Slice.double (Sample.hook i) m).2 (i + 1) n

/-- The hooks that two contexts run after a derivation. `c` is made by
`CreateContextWith` and the hooks number `0`, ..., `n - 1` are registered on
it; `d` is derived from `c`; then the hook number `n` is registered on `c`, and
after that the hook number `n + 1` on `d`. The result is what
`c.WriteHeader(200)` records and what `d.WriteHeader(200)` records, each
called in the heap that `CreateContextWith` left. -/
def Sample.derived (derive : Slice.context → Slice.context) (n : Nat) :
    Option (List CtxEvent) × Option (List CtxEvent) :=
  let ch := Slice.CreateContextWith 0 1 2 Sample.emptyHeap
  let c0 := Sample.register ch.1 Sample.noArrays 0 n
  let d0 := derive c0.1
  let c1 := c0.1.Before Slice.double (Sample.hook n) c0.2
  let d1 := d0.Before Slice.double (Sample.hook (n + 1)) c1.2
  ((c1.1.WriteHeader (logWriters 0 Sample.nullWriters) d1.2 200 ch.2).map (fun h => h.store.1),
   (d1.1.WriteHeader (logWriters 0 Sample.nullWriters) d1.2 200 ch.2).map (fun h => h.store.1))

/-- The calls `c.Before(fn)` for the hooks `fns`, one after the other, on one
context. -/
def Slice.context.Befores {S : Type} (grow : Nat → Nat) (fns : List (BeforeResponseFunc S))
    (cm : Slice.context × Arrays S) : Slice.context × Arrays S :=
  fns.foldl (fun cm fn => cm.1.Before grow fn cm.2) cm

/-! # Theorems -/

theorem first_foldl_Use {A W : Type} (ms : List (Middleware A W)) (a : app A W) :
    (ms.foldl app.Use a).first = a.first ++ ms := by
  induction ms generalizing a with
  | nil => simp
  | cons m ms ih =>
    rw [List.foldl_cons, ih]
    cases h : a.first <;> simp [app.Use, h]

theorem first_chainOf {A W : Type} (ms : List (Middleware A W)) :
    (chainOf ms).first = ms := by
  simp [chainOf, first_foldl_Use, New]

theorem runBody_of_noCall {A W R : Type} {n : Nat} (raise : PanicValue → W → R)
    (nx : Cursor A W n → A → W → (W → Cursor A W n → R) → R) (nx1 : Handler A W R)
    (b : Body A W) (hb : b.NoCall) (link : Cursor A W n) (kont : W → R) :
    runBody raise nx b link (fun w _ => kont w) = invoke raise nx1 b kont := by
  cases b with
  | ret w => rfl
  | call a w k => exact absurd hb (by simp [Body.NoCall])
  | panic v w => rfl

theorem next_eq_nest {A W R : Type} (done : Handler A W R) (raise : PanicValue → W → R)
    (n : Nat) (link : Link A W) (h : link.length ≤ n) (ht : Tame link)
    (a : A) (w : W) (kont : W → R) :
    next done raise n ⟨link, h⟩ a w (fun w1 _ => kont w1) = nest done raise link a w kont := by
  induction n generalizing link a w kont with
  | zero =>
    cases link with
    | nil => simp [next, nest]
    | cons m rest => simp at h
  | succ n ih =>
    cases link with
    | nil => simp [next, nest]
    | cons m rest =>
      simp only [next, nest]
      have hm : (m a w).AtMostOnce := by
        rcases ht with hn | ⟨ha, _⟩
        · have := hn a w
          revert this
          cases m a w <;> simp [Body.NoCall, Body.AtMostOnce]
        · exact ha a w
      cases hb : m a w with
      | ret w1 => rfl
      | panic v w1 => rfl
      | call a1 w1 k =>
        rw [hb] at hm
        have hrest : Tame rest := by
          rcases ht with hn | ⟨_, hr⟩
          · have := hn a w
            rw [hb] at this
            exact absurd this (by simp [Body.NoCall])
          · exact hr
        simp only [runBody, invoke]
        have hk : (fun w2 (link2 : Cursor A W n) =>
            runBody raise (next done raise n) (k w2) link2
              (fun w3 (link3 : Cursor A W n) =>
                kont w3)) =
            (fun w2 _ => invoke raise (nest done raise rest) (k w2) kont) := by
          funext w2 link2
          exact runBody_of_noCall raise _ _ (k w2) (hm w2) link2 kont
        rw [hk]
        exact ih rest _ hrest a1 w1 _

theorem Execute_eq_nest {A W : Type} (ms : List (Middleware A W)) (ht : Tame ms)
    (done : A → W → Outcome W) (a : A) (w : W) :
    (chainOf ms).Execute done a w = nest (terminalK done) .panicked ms a w .returned := by
  unfold app.Execute app.ExecuteK
  have h := next_eq_nest (terminalK done) Outcome.panicked (chainOf ms).first.length
    (chainOf ms).first (Nat.le_refl _) (by rw [first_chainOf]; exact ht) a w Outcome.returned
  rw [h, first_chainOf]

theorem noCall_atMostOnce {A W : Type} (b : Body A W) (h : b.NoCall) : b.AtMostOnce := by
  cases b <;> simp_all [Body.NoCall, Body.AtMostOnce]

theorem callsOnce_atMostOnce {A W : Type} (b : Body A W) (h : b.CallsOnce) : b.AtMostOnce := by
  cases b <;> simp_all [Body.CallsOnce, Body.AtMostOnce]

theorem liftBody_noCall {A W E : Type} (t : List E) (b : Body A W) (h : b.NoCall) :
    (liftBody t b).NoCall := by
  cases b <;> simp_all [Body.NoCall, liftBody]

theorem probe_noCall {A W E : Type} (e : E) (m : Middleware A W) (h : m.NoCall) :
    (probe e m).NoCall := fun a tw => liftBody_noCall _ _ (h a tw.2)

theorem probe_atMostOnce {A W E : Type} (e : E) (m : Middleware A W) (h : m.AtMostOnce) :
    (probe e m).AtMostOnce := by
  intro a tw
  have := h a tw.2
  unfold probe
  cases hb : m a tw.2 with
  | ret w1 => simp [liftBody, Body.AtMostOnce]
  | panic v w1 => simp [liftBody, Body.AtMostOnce]
  | call a1 w1 k =>
    rw [hb] at this
    simp only [liftBody, Body.AtMostOnce]
    intro tw1
    exact liftBody_noCall _ _ (this tw1.2)

theorem tame_probes_short {A W : Type} (pre post : List (Middleware A W))
    (mk : Middleware A W) (hpre : ∀ m ∈ pre, m.CallsOnce) (hk : mk.NoCall) (i : Nat) :
    Tame (probes i (pre ++ mk :: post)) := by
  induction pre generalizing i with
  | nil => exact Or.inl (probe_noCall _ _ hk)
  | cons m pre ih =>
    refine Or.inr ⟨probe_atMostOnce _ _ ?_, ih (fun m1 h1 => hpre m1 (by simp [h1])) _⟩
    exact fun a w => callsOnce_atMostOnce _ (hpre m (by simp) a w)

theorem tame_probes_all {A W : Type} (ms : List (Middleware A W))
    (h : ∀ m ∈ ms, m.AtMostOnce) (i : Nat) : Tame (probes i ms) := by
  induction ms generalizing i with
  | nil => trivial
  | cons m ms ih =>
    exact Or.inr ⟨probe_atMostOnce _ _ (h m (by simp)), ih (fun m1 h1 => h m1 (by simp [h1])) _⟩

theorem keepsLog_resume {A W E : Type} (nx : Handler A (List E × W) (Outcome (List E × W)))
    (k : W → Body A W) (hk : ∀ w1, (k w1).NoCall)
    (kont : List E × W → Outcome (List E × W)) (hkont : KeepsLog kont) :
    KeepsLog (fun tw => invoke Outcome.panicked nx (liftBody tw.1 (k tw.2)) kont) := by
  intro t w
  have := hk w
  show (invoke Outcome.panicked nx (liftBody t (k w)) kont).world.1 = t
  cases hb : k w with
  | ret w1 => simpa [liftBody, invoke] using hkont t w1
  | panic v w1 => simp [liftBody, invoke, Outcome.world]
  | call a1 w1 k1 => rw [hb] at this; exact absurd this (by simp [Body.NoCall])

theorem nest_probes_short {A W : Type} (done : A → W → Outcome W)
    (pre post : List (Middleware A W)) (mk : Middleware A W)
    (hpre : ∀ m ∈ pre, m.CallsOnce) (hk : mk.NoCall) (i : Nat) (a : A) (t : List Event) (w : W)
    (kont : List Event × W → Outcome (List Event × W)) (hkont : KeepsLog kont) :
    (nest (terminalK (probeDone done)) Outcome.panicked (probes i (pre ++ mk :: post))
      a (t, w) kont).world.1 = t ++ (List.range' i (pre.length + 1)).map Event.mw := by
  induction pre generalizing i a t w kont with
  | nil =>
    have := hk a w
    simp only [List.nil_append, probes, nest, probe]
    cases hb : mk a w with
    | ret w1 => simpa [liftBody, invoke] using hkont _ w1
    | panic v w1 => simp [liftBody, invoke, Outcome.world]
    | call a1 w1 k1 => rw [hb] at this; exact absurd this (by simp [Body.NoCall])
  | cons m pre ih =>
    have hm := hpre m (by simp) a w
    rw [List.cons_append]
    simp only [probes, nest, probe]
    cases hb : m a w with
    | ret w1 => rw [hb] at hm; exact absurd hm (by simp [Body.CallsOnce])
    | panic v w1 => rw [hb] at hm; exact absurd hm (by simp [Body.CallsOnce])
    | call a1 w1 k1 =>
      rw [hb] at hm
      simp only [liftBody, invoke]
      rw [ih (fun m1 h1 => hpre m1 (by simp [h1])) (i + 1) a1 (t ++ [Event.mw i]) w1 _
        (keepsLog_resume _ k1 hm kont hkont)]
      simp [List.range'_succ]

theorem nest_probes_full {A W : Type} (done : A → W → Outcome W)
    (ms : List (Middleware A W)) (hms : ∀ m ∈ ms, m.CallsOnce) (i : Nat) (a : A)
    (t : List Event) (w : W)
    (kont : List Event × W → Outcome (List Event × W)) (hkont : KeepsLog kont) :
    (nest (terminalK (probeDone done)) Outcome.panicked (probes i ms) a (t, w) kont).world.1
      = t ++ (List.range' i ms.length).map Event.mw ++ [Event.terminal] := by
  induction ms generalizing i a t w kont with
  | nil =>
    simp only [probes, nest, terminalK, probeDone]
    cases hd : done a w with
    | returned w1 => simpa using hkont _ w1
    | panicked v w1 => simp [Outcome.world]
  | cons m ms ih =>
    have hm := hms m (by simp) a w
    simp only [probes, nest, probe]
    cases hb : m a w with
    | ret w1 => rw [hb] at hm; exact absurd hm (by simp [Body.CallsOnce])
    | panic v w1 => rw [hb] at hm; exact absurd hm (by simp [Body.CallsOnce])
    | call a1 w1 k1 =>
      rw [hb] at hm
      simp only [liftBody, invoke]
      rw [ih (fun m1 h1 => hms m1 (by simp [h1])) (i + 1) a1 (t ++ [Event.mw i]) w1 _
        (keepsLog_resume _ k1 hm kont hkont)]
      simp [List.range'_succ]

theorem keepsLog_returned {W E : Type} :
    KeepsLog (Outcome.returned : List E × W → Outcome (List E × W)) :=
  fun _ _ => rfl

/-- C1 (short-circuit). Build a chain with `Use` from `pre`, then `mk`, then
`post`, where every middleware of `pre` calls its continuation exactly once
and `mk` does not call its continuation. Then `Execute` invokes the
middlewares of `pre` and `mk`, each exactly once and in the order of the `Use`
calls, and invokes neither a middleware of `post` nor the terminal handler:
the log of invocations is `mw 0, ..., mw (k - 1)` with `k = pre.length + 1`. -/
theorem C1_short_circuit {A W : Type} (pre post : List (Middleware A W))
    (mk : Middleware A W) (done : A → W → Outcome W)
    (hpre : ∀ m ∈ pre, m.CallsOnce) (hk : mk.NoCall) (a : A) (w : W) :
    ((chainOf (probes 0 (pre ++ mk :: post))).Execute (probeDone done) a ([], w)).world.1
      = (List.range (pre.length + 1)).map Event.mw := by
  rw [Execute_eq_nest _ (tame_probes_short pre post mk hpre hk 0),
    nest_probes_short done pre post mk hpre hk 0 a [] w _ keepsLog_returned]
  simp [List.range_eq_range']

/-- C2 (full pass). Build a chain with `Use` from the middlewares `ms` (possibly
none), each of which calls its continuation exactly once. Then `Execute`
invokes every middleware exactly once in the order of the `Use` calls and
then the terminal handler exactly once: the log of invocations is
`mw 0, ..., mw (n - 1), terminal`. -/
theorem C2_full_pass {A W : Type} (ms : List (Middleware A W)) (done : A → W → Outcome W)
    (hms : ∀ m ∈ ms, m.CallsOnce) (a : A) (w : W) :
    ((chainOf (probes 0 ms)).Execute (probeDone done) a ([], w)).world.1
      = (List.range ms.length).map Event.mw ++ [Event.terminal] := by
  rw [Execute_eq_nest _ (tame_probes_all ms
      (fun m hm a w => callsOnce_atMostOnce _ (hms m hm a w)) 0),
    nest_probes_full done ms hms 0 a [] w _ keepsLog_returned]
  simp [List.range_eq_range']

/-- C1 at the chain of `TestMiddleware`: the first middleware proceeds, the second
stops, the third is never reached. -/
theorem C1_short_circuit_witness :
    (∀ m ∈ [Sample.proceed], m.CallsOnce) ∧ Sample.halt.NoCall ∧
    ((chainOf (probes 0 ([Sample.proceed] ++ Sample.halt :: [Sample.proceed]))).Execute
      (probeDone Sample.finish) () ([], 0)).world.1 = (List.range (1 + 1)).map Event.mw :=
  have h1 : ∀ m ∈ [Sample.proceed], m.CallsOnce := by
    intro m hm
    simp only [List.mem_singleton] at hm
    subst hm
    intro a w
    simp [Sample.proceed, Body.CallsOnce, Body.NoCall]
  have h2 : Sample.halt.NoCall := by
    intro a w
    simp [Sample.halt, Body.NoCall]
  ⟨h1, h2, C1_short_circuit [Sample.proceed] [Sample.proceed] Sample.halt Sample.finish h1 h2 () 0⟩

/-- C2 at a chain of two middlewares that both proceed. -/
theorem C2_full_pass_witness :
    (∀ m ∈ [Sample.proceed, Sample.proceed], m.CallsOnce) ∧
    ((chainOf (probes 0 [Sample.proceed, Sample.proceed])).Execute
      (probeDone Sample.finish) () ([], 0)).world.1
      = (List.range 2).map Event.mw ++ [Event.terminal] :=
  have h1 : ∀ m ∈ [Sample.proceed, Sample.proceed], m.CallsOnce := by
    intro m hm
    simp only [List.mem_cons, List.mem_singleton, or_self, List.not_mem_nil, or_false] at hm
    subst hm
    intro a w
    simp [Sample.proceed, Body.CallsOnce, Body.NoCall]
  ⟨h1, C2_full_pass [Sample.proceed, Sample.proceed] Sample.finish h1 () 0⟩

theorem tame_of_atMostOnce {A W : Type} (ms : List (Middleware A W))
    (h : ∀ m ∈ ms, m.AtMostOnce) : Tame ms := by
  induction ms with
  | nil => trivial
  | cons m ms ih => exact Or.inr ⟨h m (by simp), ih (fun m1 h1 => h m1 (by simp [h1]))⟩

theorem Combine_eq_nest {A W : Type} (xs : List (Middleware A W))
    (h : ∀ m ∈ xs, m.AtMostOnce) (a : A) (w : W) :
    Combine xs a w = nest nextK Body.panic xs a w Body.ret := by
  show (chainOf xs).ExecuteK nextK Body.panic a w Body.ret = _
  unfold app.ExecuteK
  have h1 := next_eq_nest (nextK : Handler A W (Body A W)) Body.panic (chainOf xs).first.length
    (chainOf xs).first (Nat.le_refl _) (by rw [first_chainOf]; exact tame_of_atMostOnce xs h)
    a w Body.ret
  rw [h1, first_chainOf]

theorem invoke_noCall_noCall {A W : Type} (nx : Handler A W (Body A W)) (b : Body A W)
    (hb : b.NoCall) (c : W → Body A W) (hc : ∀ w, (c w).NoCall) :
    (invoke Body.panic nx b c).NoCall := by
  cases b with
  | ret w => exact hc w
  | panic v w => simp [invoke, Body.NoCall]
  | call a w k => exact absurd hb (by simp [Body.NoCall])

theorem nest_nextK_atMostOnce {A W : Type} (xs : List (Middleware A W))
    (h : ∀ m ∈ xs, m.AtMostOnce) (a : A) (w : W) (c : W → Body A W)
    (hc : ∀ w, (c w).NoCall) : (nest nextK Body.panic xs a w c).AtMostOnce := by
  induction xs generalizing a w c with
  | nil => exact hc
  | cons m xs ih =>
    have hm := h m (by simp) a w
    simp only [nest]
    cases hb : m a w with
    | ret w1 => exact noCall_atMostOnce _ (hc w1)
    | panic v w1 => simp [invoke, Body.AtMostOnce]
    | call a1 w1 k =>
      rw [hb] at hm
      simp only [invoke]
      exact ih (fun m1 h1 => h m1 (by simp [h1])) a1 w1 _
        (fun w2 => invoke_noCall_noCall _ _ (hm w2) c hc)

theorem Combine_atMostOnce {A W : Type} (xs : List (Middleware A W))
    (h : ∀ m ∈ xs, m.AtMostOnce) : (Combine xs).AtMostOnce := by
  intro a w
  rw [Combine_eq_nest xs h]
  exact nest_nextK_atMostOnce xs h a w _ (fun _ => trivial)

theorem invoke_nest_nextK {A W R : Type} (done : Handler A W R) (raise : PanicValue → W → R)
    (xs post : List (Middleware A W)) (h : ∀ m ∈ xs, m.AtMostOnce)
    (a : A) (w : W) (c : W → Body A W) (kont : W → R) :
    invoke raise (nest done raise post) (nest nextK Body.panic xs a w c) kont
      = nest done raise (xs ++ post) a w
          (fun w1 => invoke raise (nest done raise post) (c w1) kont) := by
  induction xs generalizing a w c with
  | nil => rfl
  | cons m xs ih =>
    have hm := h m (by simp) a w
    rw [List.cons_append]
    simp only [nest]
    cases hb : m a w with
    | ret w1 => rfl
    | panic v w1 => rfl
    | call a1 w1 k =>
      rw [hb] at hm
      simp only [invoke]
      rw [ih (fun m1 h1 => h m1 (by simp [h1]))]
      congr 1
      funext w2
      have := hm w2
      cases hk : k w2 with
      | ret w3 => rfl
      | panic v w3 => rfl
      | call a3 w3 k3 => rw [hk] at this; exact absurd this (by simp [Body.NoCall])

theorem nest_append_congr {A W R : Type} (done : Handler A W R) (raise : PanicValue → W → R)
    (pre l1 l2 : List (Middleware A W)) (h : nest done raise l1 = nest done raise l2) :
    nest done raise (pre ++ l1) = nest done raise (pre ++ l2) := by
  induction pre with
  | nil => exact h
  | cons m pre ih =>
    funext a w kont
    rw [List.cons_append, List.cons_append]
    simp only [nest]
    rw [ih]

theorem nest_Combine {A W R : Type} (done : Handler A W R) (raise : PanicValue → W → R)
    (xs post : List (Middleware A W)) (h : ∀ m ∈ xs, m.AtMostOnce) :
    nest done raise (Combine xs :: post) = nest done raise (xs ++ post) := by
  funext a w kont
  simp only [nest]
  rw [Combine_eq_nest xs h, invoke_nest_nextK done raise xs post h]
  rfl

theorem Execute_Combine {A W : Type} (pre xs post : List (Middleware A W))
    (done : A → W → Outcome W) (h : ∀ m ∈ pre ++ xs ++ post, m.AtMostOnce) (a : A) (w : W) :
    (chainOf (pre ++ Combine xs :: post)).Execute done a w
      = (chainOf (pre ++ xs ++ post)).Execute done a w := by
  have hxs : ∀ m ∈ xs, m.AtMostOnce := fun m hm => h m (by simp [hm])
  have h1 : ∀ m ∈ pre ++ Combine xs :: post, m.AtMostOnce := by
    intro m hm
    simp only [List.mem_append, List.mem_cons] at hm
    rcases hm with hm | hm | hm
    · exact h m (by simp [hm])
    · rw [hm]; exact Combine_atMostOnce xs hxs
    · exact h m (by simp [hm])
  rw [Execute_eq_nest _ (tame_of_atMostOnce _ h1), Execute_eq_nest _ (tame_of_atMostOnce _ h),
    nest_append_congr _ _ pre _ _ (nest_Combine _ _ xs post hxs), List.append_assoc]

theorem probes_append {A W : Type} (l1 l2 : List (Middleware A W)) (i : Nat) :
    probes i (l1 ++ l2) = probes i l1 ++ probes (i + l1.length) l2 := by
  induction l1 generalizing i with
  | nil => simp [probes]
  | cons m l1 ih =>
    rw [List.cons_append]
    simp only [probes, List.cons_append, List.length_cons]
    rw [ih, Nat.add_assoc, Nat.add_comm 1]

theorem probes_atMostOnce {A W : Type} (ms : List (Middleware A W))
    (h : ∀ m ∈ ms, m.AtMostOnce) (i : Nat) : ∀ m ∈ probes i ms, m.AtMostOnce := by
  induction ms generalizing i with
  | nil => simp [probes]
  | cons m ms ih =>
    intro m1 hm1
    simp only [probes, List.mem_cons] at hm1
    rcases hm1 with hm1 | hm1
    · rw [hm1]; exact probe_atMostOnce _ _ (h m (by simp))
    · exact ih (fun m2 h2 => h m2 (by simp [h2])) _ m1 hm1

/-- C3 (Combine is inlining). Let every middleware of `pre`, `xs` and `post`
call its continuation zero times or once. Then for every terminal handler,
arguments and initial world, executing the chain `pre ++ [Combine xs] ++ post`
gives the same outcome (final world, returned or panicked) as executing
`pre ++ xs ++ post`; with every middleware and the terminal handler
recording its invocation, the two executions also leave the same log of
invocations; and `Combine` of no middleware just calls its continuation. -/
theorem C3_combine_inline {A W : Type} (pre xs post : List (Middleware A W))
    (done : A → W → Outcome W) (h : ∀ m ∈ pre ++ xs ++ post, m.AtMostOnce) (a : A) (w : W) :
    (chainOf (pre ++ Combine xs :: post)).Execute done a w
        = (chainOf (pre ++ xs ++ post)).Execute done a w
    ∧ (chainOf (probes 0 pre ++ Combine (probes pre.length xs)
          :: probes (pre.length + xs.length) post)).Execute (probeDone done) a ([], w)
        = (chainOf (probes 0 (pre ++ xs ++ post))).Execute (probeDone done) a ([], w)
    ∧ (Combine ([] : List (Middleware A W))) a w = Body.call a w Body.ret := by
  refine ⟨Execute_Combine pre xs post done h a w, ?_, rfl⟩
  have hp := probes_atMostOnce _ h 0
  rw [probes_append, probes_append, Nat.zero_add, Nat.zero_add, List.length_append] at hp
  rw [Execute_Combine _ _ _ _ hp, probes_append, probes_append, Nat.zero_add, Nat.zero_add,
    List.length_append]

/-- C3 at the middlewares of `TestCombine`, combined between two others. -/
theorem C3_combine_inline_witness :
    (∀ m ∈ [Sample.proceed] ++ [Sample.proceed, Sample.halt, Sample.proceed] ++ [Sample.proceed],
        m.AtMostOnce) ∧
    (chainOf ([Sample.proceed] ++ Combine [Sample.proceed, Sample.halt, Sample.proceed]
        :: [Sample.proceed])).Execute Sample.finish () 0
      = (chainOf ([Sample.proceed] ++ [Sample.proceed, Sample.halt, Sample.proceed]
        ++ [Sample.proceed])).Execute Sample.finish () 0 :=
  have h1 : ∀ m ∈ [Sample.proceed] ++ [Sample.proceed, Sample.halt, Sample.proceed]
      ++ [Sample.proceed], m.AtMostOnce := by
    intro m hm
    simp only [List.cons_append, List.nil_append, List.mem_cons, List.mem_singleton,
      List.not_mem_nil, or_false] at hm
    rcases hm with hm | hm | hm | hm | hm <;> subst hm <;> intro a w <;>
      simp [Sample.proceed, Sample.halt, Body.AtMostOnce, Body.NoCall]
  ⟨h1, (C3_combine_inline [Sample.proceed] [Sample.proceed, Sample.halt, Sample.proceed]
    [Sample.proceed] Sample.finish h1 () 0).1⟩

/-! ## Mount -/

theorem Mount_of_match {A W : Type} [PathStore A W] (pfx : List Char) (mw : Middleware A W)
    (a : A) (w : W) (h : Spec.mountMatches (TrimSuffix pfx ['/']) (PathStore.path a w)) :
    Mount pfx mw a w = invoke Body.panic (Mount.restore a (PathStore.path a w))
      (mw a (Mount.strip (TrimSuffix pfx ['/']) a w)) Body.ret := by
  unfold Spec.mountMatches at h
  simp only [Mount, if_pos h]

theorem Mount_of_not_match {A W : Type} [PathStore A W] (pfx : List Char)
    (mw : Middleware A W) (a : A) (w : W)
    (h : ¬ Spec.mountMatches (TrimSuffix pfx ['/']) (PathStore.path a w)) :
    Mount pfx mw a w = Body.call a w Body.ret := by
  unfold Spec.mountMatches at h
  simp only [Mount, if_neg h]

theorem path_strip {A W : Type} [PathStore A W] (p : List Char) (a : A) (w : W) :
    PathStore.path a (Mount.strip p a w) = Spec.mountStripped p (PathStore.path a w) := by
  unfold Mount.strip Spec.mountStripped
  simp only [PathStore.path_setPath, List.length_eq_zero]
  split <;> simp [PathStore.path_setPath]

theorem log_grows_mount {A W : Type} [PathStore A W] (nx : A → W → Outcome W) (a : A)
    (before : List Char) (b : Body A W) (t : List Event)
    (kont : List Event × W → Outcome (List Event × W))
    (hkont : ∀ t1 w1, t1 <+: (kont (t1, w1)).world.1) :
    t <+: (invoke Outcome.panicked (terminalK (probeDone nx))
      (invoke Body.panic (Mount.restore a before) (liftBody t b) Body.ret) kont).world.1 := by
  induction b generalizing t with
  | ret w1 => exact hkont t w1
  | panic v w1 => simp [liftBody, invoke, Outcome.world]
  | call a1 w1 k ih =>
    simp only [liftBody, invoke, Mount.restore, terminalK, probeDone]
    cases hd : nx a1 (PathStore.setPath a before (t, w1)).2 with
    | returned w2 =>
      simp only [PathStore.setPath]
      exact (List.prefix_append t [Event.terminal]).trans (ih w2 _)
    | panicked v w2 =>
      simp only [PathStore.setPath, Outcome.world]
      exact List.prefix_append t [Event.terminal]

theorem log_kept_mount {A W E : Type} [PathStore A W] (nx : A → W → Outcome W) (a : A)
    (before : List Char) (b : Body A W) (t : List E)
    (kont : List E × W → Outcome (List E × W)) (hkont : KeepsLog kont) :
    (invoke Outcome.panicked (terminalK (liftDone nx))
      (invoke Body.panic (Mount.restore a before) (liftBody t b) Body.ret) kont).world.1 = t := by
  induction b generalizing t with
  | ret w1 => exact hkont t w1
  | panic v w1 => simp [liftBody, invoke, Outcome.world]
  | call a1 w1 k ih =>
    simp only [liftBody, invoke, Mount.restore, terminalK, liftDone]
    cases hd : nx a1 (PathStore.setPath a before (t, w1)).2 with
    | returned w2 =>
      simp only [PathStore.setPath]
      exact ih w2 _
    | panicked v w2 =>
      simp only [PathStore.setPath, Outcome.world]

theorem strip_log {A W E : Type} [PathStore A W] (p : List Char) (a : A) (t : List E) (w : W) :
    Mount.strip p a (t, w) = (t, Mount.strip p a w) := by
  unfold Mount.strip
  simp only [PathStore.path, PathStore.setPath]
  split <;> rfl

/-- C4 (Mount matching), amended. `Mount` first drops one trailing `"/"` from the
prefix it is given (`strings.TrimSuffix`). With `p` the prefix so trimmed and
`P` the path of the request, the middleware `Mount(prefix, mw)`, called with any
continuation, invokes `mw` if and only if `P == p` or `P` starts with
`p + "/"`; and when that does not hold its body is exactly the call of the
outer continuation with its own arguments in an unchanged world, so that the
log of invocations is the single entry of that continuation. -/
theorem C4_mount_matching {A W : Type} [PathStore A W] (pfx : List Char)
    (mw : Middleware A W) (nx : A → W → Outcome W) (a : A) (w : W) :
    (Event.mw 0 ∈ ((Mount pfx (probe (Event.mw 0) mw)).run (probeDone nx) a ([], w)).world.1
        ↔ Spec.mountMatches (TrimSuffix pfx ['/']) (PathStore.path a w))
    ∧ (Spec.mountMatches (TrimSuffix pfx ['/']) (PathStore.path a w)
        ∨ (Mount pfx mw a w = Body.call a w Body.ret
            ∧ ((Mount pfx (probe (Event.mw 0) mw)).run (probeDone nx) a ([], w)).world.1
                = [Event.terminal])) := by
  by_cases h : Spec.mountMatches (TrimSuffix pfx ['/']) (PathStore.path a w)
  · refine ⟨⟨fun _ => h, fun _ => ?_⟩, Or.inl h⟩
    have h1 : Spec.mountMatches (TrimSuffix pfx ['/'])
        (PathStore.path a (([], w) : List Event × W)) := h
    unfold Middleware.run
    rw [Mount_of_match pfx _ a _ h1, strip_log]
    have := log_grows_mount nx a (PathStore.path a (([], w) : List Event × W))
      (mw a (Mount.strip (TrimSuffix pfx ['/']) a w)) [Event.mw 0] Outcome.returned
      (fun t1 w1 => List.prefix_refl t1)
    exact this.subset (by simp)
  · have h1 : ¬ Spec.mountMatches (TrimSuffix pfx ['/'])
        (PathStore.path a (([], w) : List Event × W)) := h
    have hlog : ((Mount pfx (probe (Event.mw 0) mw)).run (probeDone nx) a ([], w)).world.1
        = [Event.terminal] := by
      unfold Middleware.run
      rw [Mount_of_not_match pfx _ a _ h1]
      simp only [invoke, terminalK, probeDone]
      cases nx a w <;> rfl
    refine ⟨⟨fun hm => ?_, fun hm => absurd hm h⟩, Or.inr ⟨Mount_of_not_match pfx mw a w h, hlog⟩⟩
    rw [hlog] at hm
    simp at hm

/-- C4 as stated fails: for the prefix `"/foo/"` and the request path `"/foo"`
the mounted middleware is invoked, although the path neither equals the prefix
nor starts with `"/foo//"`. -/
theorem C4_mount_matching_counterexample :
    ¬ (Event.mw 0 ∈ ((Mount ['/', 'f', 'o', 'o', '/'] (probe (Event.mw 0) Sample.visit)).run
          (probeDone Sample.ok) () ([], ⟨['/', 'f', 'o', 'o'], 0⟩)).world.1
        ↔ Spec.mountMatches ['/', 'f', 'o', 'o', '/'] ['/', 'f', 'o', 'o']) := by
  decide

/-- C5 (Mount path stripping), amended. With `p` the prefix less one trailing
`"/"` and `P` a request path that matches, the path the mounted middleware
reads when it is invoked is `P` with the leading `p` removed, or `"/"` when
that remainder is empty: the mounted middleware, recording the path it sees on
entry, leaves exactly that entry in the log. -/
theorem C5_mount_strip {A W : Type} [PathStore A W] (pfx : List Char)
    (mw : Middleware A W) (nx : A → W → Outcome W) (a : A) (w : W)
    (h : Spec.mountMatches (TrimSuffix pfx ['/']) (PathStore.path a w)) :
    ((Mount pfx (observe PathStore.path mw)).run (liftDone nx) a ([], w)).world.1
      = [Spec.mountStripped (TrimSuffix pfx ['/']) (PathStore.path a w)] := by
  have h1 : Spec.mountMatches (TrimSuffix pfx ['/'])
      (PathStore.path a (([], w) : List (List Char) × W)) := h
  unfold Middleware.run
  rw [Mount_of_match pfx _ a _ h1, strip_log]
  simp only [observe, List.nil_append]
  rw [log_kept_mount nx a _ _ _ Outcome.returned keepsLog_returned, path_strip]

/-- C5 at the prefix `"/foo"` and the path `"/foo/bar"` of `TestMount`. -/
theorem C5_mount_strip_witness :
    Spec.mountMatches (TrimSuffix ['/', 'f', 'o', 'o'] ['/'])
      (PathStore.path () (⟨['/', 'f', 'o', 'o', '/', 'b', 'a', 'r'], 0⟩ : Sample.Exchange))
    ∧ ((Mount ['/', 'f', 'o', 'o'] (observe PathStore.path Sample.visit)).run
        (liftDone Sample.ok) () ([], ⟨['/', 'f', 'o', 'o', '/', 'b', 'a', 'r'], 0⟩)).world.1
      = [Spec.mountStripped (TrimSuffix ['/', 'f', 'o', 'o'] ['/'])
          (PathStore.path () (⟨['/', 'f', 'o', 'o', '/', 'b', 'a', 'r'], 0⟩ : Sample.Exchange))] :=
  ⟨by decide, C5_mount_strip ['/', 'f', 'o', 'o'] Sample.visit Sample.ok ()
    ⟨['/', 'f', 'o', 'o', '/', 'b', 'a', 'r'], 0⟩ (by decide)⟩

/-- C5 as stated fails: for the prefix `"/foo/"` and the request path
`"/foo/bar"` the mounted middleware is invoked and reads the path `"/bar"`,
not `"bar"`, which is the path with the prefix removed. -/
theorem C5_mount_strip_counterexample :
    ((Mount ['/', 'f', 'o', 'o', '/'] (observe PathStore.path Sample.visit)).run
        (liftDone Sample.ok) () ([], ⟨['/', 'f', 'o', 'o', '/', 'b', 'a', 'r'], 0⟩)).world.1
      = [['/', 'b', 'a', 'r']]
    ∧ Spec.mountStripped ['/', 'f', 'o', 'o', '/'] ['/', 'f', 'o', 'o', '/', 'b', 'a', 'r']
      = ['b', 'a', 'r']
    ∧ ¬ (((Mount ['/', 'f', 'o', 'o', '/'] (observe PathStore.path Sample.visit)).run
        (liftDone Sample.ok) () ([], ⟨['/', 'f', 'o', 'o', '/', 'b', 'a', 'r'], 0⟩)).world.1
      = [Spec.mountStripped ['/', 'f', 'o', 'o', '/']
          ['/', 'f', 'o', 'o', '/', 'b', 'a', 'r']]) := by
  decide

theorem allCalls_restore {A W : Type} [PathStore A W] (a : A) (before : List Char)
    (b : Body A W) :
    (invoke Body.panic (Mount.restore a before) b Body.ret).AllCalls
      (fun _ w1 => PathStore.path a w1 = before) := by
  induction b with
  | ret w1 => trivial
  | panic v w1 => trivial
  | call a1 w1 k ih =>
    simp only [invoke, Mount.restore, Body.AllCalls]
    exact ⟨PathStore.path_setPath a before w1, ih⟩

/-- C6 (Mount path restoration). Let the request path `P` match the mounted
prefix. Every call the mounted middleware makes of the continuation it was
given reaches the outer continuation in a world in which the path of the
request is `P` again; and when the mounted middleware, started on the stripped
path, calls its continuation with arguments `a1` in a world `w1`, the
middleware `Mount(prefix, mw)` calls the outer continuation with `a1` in the
world `w1` with the path set back to `P`. -/
theorem C6_mount_restore {A W : Type} [PathStore A W] (pfx : List Char)
    (mw : Middleware A W) (a : A) (w : W)
    (h : Spec.mountMatches (TrimSuffix pfx ['/']) (PathStore.path a w)) :
    (Mount pfx mw a w).AllCalls (fun _ w1 => PathStore.path a w1 = PathStore.path a w)
    ∧ ∀ a1 w1 k, mw a (Mount.strip (TrimSuffix pfx ['/']) a w) = Body.call a1 w1 k →
        ∃ k1, Mount pfx mw a w
            = Body.call a1 (PathStore.setPath a (PathStore.path a w) w1) k1
          ∧ PathStore.path a (PathStore.setPath a (PathStore.path a w) w1)
            = PathStore.path a w := by
  rw [Mount_of_match pfx mw a w h]
  refine ⟨allCalls_restore a _ _, fun a1 w1 k hk => ?_⟩
  rw [hk]
  exact ⟨_, rfl, PathStore.path_setPath a _ w1⟩

/-- C6 at the prefix `"/foo"`, the path `"/foo/bar"` and a mounted middleware
that proceeds. -/
theorem C6_mount_restore_witness :
    Spec.mountMatches (TrimSuffix ['/', 'f', 'o', 'o'] ['/'])
      (PathStore.path () (⟨['/', 'f', 'o', 'o', '/', 'b', 'a', 'r'], 0⟩ : Sample.Exchange))
    ∧ (Mount ['/', 'f', 'o', 'o'] Sample.forward ()
        (⟨['/', 'f', 'o', 'o', '/', 'b', 'a', 'r'], 0⟩ : Sample.Exchange)).AllCalls
      (fun _ w1 => PathStore.path () w1 = ['/', 'f', 'o', 'o', '/', 'b', 'a', 'r']) :=
  ⟨by decide, (C6_mount_restore ['/', 'f', 'o', 'o'] Sample.forward ()
    ⟨['/', 'f', 'o', 'o', '/', 'b', 'a', 'r'], 0⟩ (by decide)).1⟩

theorem hasPrefix_iff (s p : List Char) : HasPrefix s p = true ↔ p <+: s := by
  unfold HasPrefix
  simp only [Bool.and_eq_true, decide_eq_true_eq, beq_iff_eq]
  constructor
  · rintro ⟨_, h2⟩
    rw [← h2]
    exact List.take_prefix _ _
  · intro h
    exact ⟨h.length_le, List.prefix_iff_eq_take.mp h |>.symm⟩

theorem stripped_ne {p P : List Char} (h : Spec.mountMatches p P) (hp : p ≠ [])
    (hP : P ≠ ['/']) : Spec.mountStripped p P ≠ P := by
  unfold Spec.mountStripped TrimPrefix
  rcases h with h | h
  · subst h
    have : HasPrefix P P = true := (hasPrefix_iff P P).2 (List.prefix_refl P)
    simp only [this, if_true, List.drop_length]
    exact fun h1 => hP h1.symm
  · rw [hasPrefix_iff] at h
    obtain ⟨r, hr⟩ := h
    have h1 : HasPrefix P p = true := (hasPrefix_iff P p).2 ⟨['/'] ++ r, by rw [← hr]; simp⟩
    have h2 : P.drop p.length = '/' :: r := by
      rw [← hr]; simp
    simp only [h1, if_true, h2, if_neg (List.cons_ne_nil '/' r)]
    intro h3
    have h4 := congrArg List.length h3
    rw [← hr] at h4
    have : 0 < p.length := List.length_pos.mpr hp
    simp only [List.length_cons, List.length_append, List.length_singleton,
      List.length_nil] at h4
    omega

/-- C7 (Mount without continuation), amended. Let `p` be the prefix less one
trailing `"/"`, let the request path `P` match, and let the mounted middleware
return without calling its continuation and without assigning the path
itself. Then `Mount(prefix, mw)` returns without calling the outer
continuation, and the path of the request is then `P` with the leading `p`
removed (or `"/"` when that is empty): nothing restores it. That path differs
from `P` unless `p` is empty or `P` is `"/"`. -/
theorem C7_mount_no_restore {A W : Type} [PathStore A W] (pfx : List Char)
    (mw : Middleware A W) (a : A) (w : W)
    (h : Spec.mountMatches (TrimSuffix pfx ['/']) (PathStore.path a w))
    (hmw : ∀ w1, ∃ w2, mw a w1 = Body.ret w2 ∧ PathStore.path a w2 = PathStore.path a w1) :
    ∃ w2, Mount pfx mw a w = Body.ret w2
      ∧ PathStore.path a w2
          = Spec.mountStripped (TrimSuffix pfx ['/']) (PathStore.path a w)
      ∧ (TrimSuffix pfx ['/'] = [] ∨ PathStore.path a w = ['/']
          ∨ PathStore.path a w2 ≠ PathStore.path a w) := by
  obtain ⟨w2, h1, h2⟩ := hmw (Mount.strip (TrimSuffix pfx ['/']) a w)
  have h3 : PathStore.path a w2
      = Spec.mountStripped (TrimSuffix pfx ['/']) (PathStore.path a w) := by
    rw [h2, path_strip]
  refine ⟨w2, ?_, h3, ?_⟩
  · rw [Mount_of_match pfx mw a w h, h1]
    rfl
  · by_cases hp : TrimSuffix pfx ['/'] = []
    · exact Or.inl hp
    · by_cases hP : PathStore.path a w = ['/']
      · exact Or.inr (Or.inl hP)
      · exact Or.inr (Or.inr (by rw [h3]; exact stripped_ne h hp hP))

/-- C7 at the prefix `"/foo"`, the path `"/foo/bar"` and a mounted middleware
that stops. -/
theorem C7_mount_no_restore_witness :
    Spec.mountMatches (TrimSuffix ['/', 'f', 'o', 'o'] ['/'])
      (PathStore.path () (⟨['/', 'f', 'o', 'o', '/', 'b', 'a', 'r'], 0⟩ : Sample.Exchange))
    ∧ (∀ w1, ∃ w2, Sample.visit () w1 = Body.ret w2
        ∧ PathStore.path () w2 = PathStore.path () w1)
    ∧ ∃ w2 : Sample.Exchange, Mount ['/', 'f', 'o', 'o'] Sample.visit ()
          ⟨['/', 'f', 'o', 'o', '/', 'b', 'a', 'r'], 0⟩ = Body.ret w2
      ∧ PathStore.path () w2 = Spec.mountStripped (TrimSuffix ['/', 'f', 'o', 'o'] ['/'])
          (PathStore.path () (⟨['/', 'f', 'o', 'o', '/', 'b', 'a', 'r'], 0⟩ : Sample.Exchange))
      ∧ (TrimSuffix ['/', 'f', 'o', 'o'] ['/'] = []
          ∨ PathStore.path () (⟨['/', 'f', 'o', 'o', '/', 'b', 'a', 'r'], 0⟩ : Sample.Exchange)
              = ['/']
          ∨ PathStore.path () w2
              ≠ PathStore.path () (⟨['/', 'f', 'o', 'o', '/', 'b', 'a', 'r'], 0⟩
                  : Sample.Exchange)) :=
  have hv : ∀ w1, ∃ w2, Sample.visit () w1 = Body.ret w2
      ∧ PathStore.path () w2 = PathStore.path () w1 :=
    fun w1 => ⟨_, rfl, rfl⟩
  ⟨by decide, hv, C7_mount_no_restore ['/', 'f', 'o', 'o'] Sample.visit ()
    ⟨['/', 'f', 'o', 'o', '/', 'b', 'a', 'r'], 0⟩ (by decide) hv⟩

/-- C7 as stated fails, on paths that match in the words of the specification as
well. For the prefix `"/foo/"` and the request path `"/foo//x"` the mounted
middleware is invoked (it counts one invocation) and returns without calling
its continuation, and the path of the request is then `"//x"`, not `"/x"`,
the path with the prefix removed. For the empty prefix and the request path
`"/x"` it is invoked likewise, and the path is then `"/x"`: the original path. -/
theorem C7_mount_no_restore_counterexample :
    (Spec.mountMatches ['/', 'f', 'o', 'o', '/'] ['/', 'f', 'o', 'o', '/', '/', 'x']
      ∧ ((Mount ['/', 'f', 'o', 'o', '/'] Sample.visit).run Sample.ok ()
          ⟨['/', 'f', 'o', 'o', '/', '/', 'x'], 0⟩).world.hits = 1
      ∧ ¬ (((Mount ['/', 'f', 'o', 'o', '/'] Sample.visit).run Sample.ok ()
            ⟨['/', 'f', 'o', 'o', '/', '/', 'x'], 0⟩).world.urlPath
          = Spec.mountStripped ['/', 'f', 'o', 'o', '/'] ['/', 'f', 'o', 'o', '/', '/', 'x']))
    ∧ (Spec.mountMatches [] ['/', 'x']
      ∧ ((Mount [] Sample.visit).run Sample.ok () ⟨['/', 'x'], 0⟩).world.hits = 1
      ∧ ¬ (((Mount [] Sample.visit).run Sample.ok () ⟨['/', 'x'], 0⟩).world.urlPath
          ≠ ['/', 'x'])) := by
  decide

/-! ## The response context -/

theorem runBefore_cells {S : Type} (fns : List (BeforeResponseFunc S)) (rw : Nat)
    (h : Heap S) : (runBefore fns rw h).cells = h.cells := by
  induction fns generalizing h with
  | nil => rfl
  | cons fn fns ih => simp only [runBefore]; rw [ih]

theorem runBefore_fresh {S : Type} (fns : List (BeforeResponseFunc S)) (rw : Nat)
    (h : Heap S) : (runBefore fns rw h).fresh = h.fresh := by
  induction fns generalizing h with
  | nil => rfl
  | cons fn fns ih => simp only [runBefore]; rw [ih]

theorem status_WriteHeader {S : Type} (ws : Writers S) (c : context S) (code : Int)
    (h : Heap S) : c.Status (c.WriteHeader ws code h) = code := by
  simp [context.Status, context.WriteHeader]

theorem status_Write {S : Type} (ws : Writers S) (c : context S) (b : Bytes) (h : Heap S) :
    c.Status (c.Write ws b h).2 = if c.Status h = 0 then 200 else c.Status h := by
  unfold context.Write
  by_cases h0 : h.cells c.status = 0
  · simp only [if_pos h0]
    have := status_WriteHeader ws c 200 h
    simp only [context.Status] at this ⊢
    rw [if_pos h0]
    exact this
  · simp only [if_neg h0, context.Status]

theorem status_calls {S : Type} (ws : Writers S) (c : context S) (cs : List Call)
    (h : Heap S) :
    c.Status (c.calls ws cs h)
      = cs.foldl (fun s c => match c with
          | .WriteHeader code => code
          | .Write _ => if s = 0 then 200 else s) (c.Status h) := by
  induction cs generalizing h with
  | nil => rfl
  | cons x cs ih =>
    simp only [context.calls, List.foldl_cons] at ih ⊢
    rw [ih]
    cases x with
    | WriteHeader code => simp only [context.call, status_WriteHeader]
    | Write b => simp only [context.call, status_Write]

theorem foldl_Before {S : Type} (fns : List (BeforeResponseFunc S)) (c : context S) :
    fns.foldl context.Before c = { c with beforeFuncs := c.beforeFuncs ++ fns } := by
  induction fns generalizing c with
  | nil => simp
  | cons fn fns ih => simp [List.foldl_cons, ih, context.Before]

/-- C8 (status round trip). Take the context made by `CreateContext`, with any
hooks then registered by `Before`. Before anything is written `Status()` is
`0`; after any sequence of `WriteHeader` and `Write` calls `Status()` is the
code of the most recent `WriteHeader` call, a `Write` made while the status is
`0` counting as `WriteHeader(200)`; and after a first `Write` it is `200`. -/
theorem C8_status_round_trip {S : Type} (ws : Writers S) (rw r : Nat) (h0 : Heap S)
    (fns : List (BeforeResponseFunc S)) (cs : List Call) (b : Bytes) :
    (fns.foldl context.Before (CreateContext rw r h0).1).Status (CreateContext rw r h0).2 = 0
    ∧ (fns.foldl context.Before (CreateContext rw r h0).1).Status
        ((fns.foldl context.Before (CreateContext rw r h0).1).calls ws cs
          (CreateContext rw r h0).2) = Spec.status cs
    ∧ (fns.foldl context.Before (CreateContext rw r h0).1).Status
        ((fns.foldl context.Before (CreateContext rw r h0).1).Write ws b
          (CreateContext rw r h0).2).2 = 200 := by
  have hs : (fns.foldl context.Before (CreateContext rw r h0).1).Status
      (CreateContext rw r h0).2 = 0 := by
    rw [foldl_Before]
    simp [context.Status, CreateContext, CreateContextWith]
  refine ⟨hs, ?_, ?_⟩
  · rw [status_calls, hs]
    rfl
  · rw [status_Write, hs]
    rfl

theorem runBefore_logHooks {S : Type} (cell : Nat) (fns : List (BeforeResponseFunc S))
    (i rw : Nat) (h : Heap (List CtxEvent × S)) :
    runBefore (logHooks cell i fns) rw h
      = ⟨h.cells, h.fresh,
          (h.store.1 ++ (List.range' i fns.length).map
              (fun j => CtxEvent.hook j rw (h.cells cell)),
           (runBefore fns rw h.drop).store)⟩ := by
  induction fns generalizing i h with
  | nil => simp [logHooks, runBefore, Heap.drop]
  | cons fn fns ih =>
    simp only [logHooks, runBefore]
    rw [ih]
    simp [logHook, Heap.drop, List.range'_succ]

theorem WriteHeader_logged {S : Type} (ws : Writers S) (fns : List (BeforeResponseFunc S))
    (ctx rw r st : Nat) (code : Int) (h : Heap (List CtxEvent × S)) :
    context.WriteHeader (logWriters st ws) ⟨ctx, rw, r, st, logHooks st 0 fns⟩ code h
      = ⟨Function.update h.cells st code, h.fresh,
          (h.store.1 ++ (List.range fns.length).map
              (fun j => CtxEvent.hook j rw (h.cells st))
            ++ [CtxEvent.writeHeader rw code code],
           (context.WriteHeader ws ⟨ctx, rw, r, st, fns⟩ code h.drop).store)⟩ := by
  simp only [context.WriteHeader, runBefore_logHooks, logWriters, Heap.drop,
    Function.update_same, List.range_eq_range', runBefore_cells, runBefore_fresh]

/-- C10 (hook ordering in `WriteHeader`). Let the hooks `h1..hn` be registered
with `Before`, in that order, on a context without hooks, each hook and the
response writer recording its invocation. A call `WriteHeader(code)` then adds
to the log the hooks `0, ..., n - 1` in that order, each invoked on the
underlying response writer of the context and still seeing the previous status,
and after them the one call `WriteHeader(code)` of the underlying writer, which
sees the status `code` already recorded; afterwards `Status()` is `code`; and
apart from the log the heap is the one `WriteHeader(code)` gives without any
recording. -/
theorem C10_hook_order {S : Type} (ws : Writers S) (fns : List (BeforeResponseFunc S))
    (ctx rw r st : Nat) (code : Int) (h : Heap (List CtxEvent × S)) :
    (context.WriteHeader (logWriters st ws)
        ((logHooks st 0 fns).foldl context.Before ⟨ctx, rw, r, st, []⟩) code h).store.1
      = h.store.1
          ++ (List.range fns.length).map (fun i => CtxEvent.hook i rw (h.cells st))
          ++ [CtxEvent.writeHeader rw code code]
    ∧ context.Status ((logHooks st 0 fns).foldl context.Before ⟨ctx, rw, r, st, []⟩)
        (context.WriteHeader (logWriters st ws)
          ((logHooks st 0 fns).foldl context.Before ⟨ctx, rw, r, st, []⟩) code h) = code
    ∧ (context.WriteHeader (logWriters st ws)
        ((logHooks st 0 fns).foldl context.Before ⟨ctx, rw, r, st, []⟩) code h).drop
      = context.WriteHeader ws (fns.foldl context.Before ⟨ctx, rw, r, st, []⟩) code h.drop := by
  refine ⟨?_, status_WriteHeader _ _ _ _, ?_⟩
  · rw [foldl_Before]
    simp only [List.nil_append]
    rw [WriteHeader_logged]
  · rw [foldl_Before, foldl_Before]
    simp only [List.nil_append]
    rw [WriteHeader_logged]
    simp [Heap.drop, context.WriteHeader, runBefore_cells, runBefore_fresh]

/-- C9 (implicit header on `Write`). On a context whose hooks and response
writer record their invocations, `Write(b)` with status `0` adds to the log
the hooks in order and exactly one `WriteHeader(200)` of the underlying
writer, and then the call `Write(b)` of the underlying writer; with a
non-zero status it adds the call `Write(b)` of the underlying writer alone, no
hook and no `WriteHeader`, and the status is unchanged. In both cases the
result is the byte count and error the underlying writer returned for that
call. -/
theorem C9_implicit_header {S : Type} (ws : Writers S) (fns : List (BeforeResponseFunc S))
    (ctx rw r st : Nat) (b : Bytes) (h : Heap (List CtxEvent × S)) :
    (context.Write (logWriters st ws)
        ((logHooks st 0 fns).foldl context.Before ⟨ctx, rw, r, st, []⟩) b h).2.store.1
      = h.store.1
          ++ (if h.cells st = 0 then
                (List.range fns.length).map (fun i => CtxEvent.hook i rw 0)
                  ++ [CtxEvent.writeHeader rw 200 200]
              else [])
          ++ [CtxEvent.write rw b (if h.cells st = 0 then 200 else h.cells st)]
    ∧ context.Status ((logHooks st 0 fns).foldl context.Before ⟨ctx, rw, r, st, []⟩)
        (context.Write (logWriters st ws)
          ((logHooks st 0 fns).foldl context.Before ⟨ctx, rw, r, st, []⟩) b h).2
      = (if h.cells st = 0 then 200 else h.cells st)
    ∧ (context.Write (logWriters st ws)
        ((logHooks st 0 fns).foldl context.Before ⟨ctx, rw, r, st, []⟩) b h).1
      = (ws.Write rw b
          (if h.cells st = 0 then
            context.WriteHeader ws (fns.foldl context.Before ⟨ctx, rw, r, st, []⟩) 200 h.drop
           else h.drop)).1 := by
  rw [foldl_Before, foldl_Before]
  simp only [List.nil_append]
  refine ⟨?_, ?_, ?_⟩
  · unfold context.Write
    by_cases h0 : h.cells st = 0
    · simp only [if_pos h0, WriteHeader_logged]
      simp only [logWriters, Function.update_same, h0]
      simp
    · simp only [if_neg h0, logWriters]
      simp
  · exact status_Write _ _ _ _
  · unfold context.Write
    by_cases h0 : h.cells st = 0
    · simp only [if_pos h0, WriteHeader_logged]
      simp only [logWriters, Heap.drop]
      simp [context.WriteHeader, runBefore_cells, runBefore_fresh]
    · simp only [if_neg h0, logWriters]

/-! ## The cursor of `Execute` after the chain is exhausted -/

theorem runBody_nil {A W R : Type} (done : Handler A W R) (raise : PanicValue → W → R)
    (n : Nat) (b : Body A W) (h : ([] : Link A W).length ≤ n) (kont : W → R) :
    runBody raise (next done raise n) b ⟨[], h⟩ (fun w _ => kont w)
      = invoke raise done b kont := by
  induction b with
  | ret w => rfl
  | panic v w => rfl
  | call a w k ih =>
    simp only [runBody, invoke]
    cases n <;> simp only [next] <;> congr 1 <;> funext w1 <;> exact ih w1

theorem next_callsOnce {A W R : Type} (done : Handler A W R) (raise : PanicValue → W → R)
    (n : Nat) (link : Link A W) (h : link.length ≤ n) (hl : ∀ m ∈ link, m.CallsOnce)
    (a : A) (w : W) (K : W → Cursor A W n → R) :
    next done raise n ⟨link, h⟩ a w K
      = nest done raise link a w (fun w1 => K w1 ⟨[], Nat.zero_le _⟩) := by
  induction n generalizing link a w with
  | zero =>
    cases link with
    | nil => simp [next, nest]
    | cons m rest => simp at h
  | succ n ih =>
    cases link with
    | nil => simp [next, nest]
    | cons m rest =>
      simp only [next, nest]
      have hm := hl m (by simp) a w
      cases hb : m a w with
      | ret w1 => rw [hb] at hm; exact absurd hm (by simp [Body.CallsOnce])
      | panic v w1 => rw [hb] at hm; exact absurd hm (by simp [Body.CallsOnce])
      | call a1 w1 k =>
        rw [hb] at hm
        simp only [runBody, invoke]
        rw [ih rest _ (fun m1 h1 => hl m1 (by simp [h1]))]
        congr 1
        funext w2
        have := hm w2
        cases hk : k w2 with
        | ret w3 => rfl
        | panic v w3 => rfl
        | call a3 w3 k3 => rw [hk] at this; exact absurd this (by simp [Body.NoCall])

theorem next_afterFirst {A W R : Type} (done : Handler A W R) (raise : PanicValue → W → R)
    (n : Nat) (pre post : Link A W) (mk : Middleware A W)
    (h : (pre ++ mk :: post).length ≤ n)
    (hpre : ∀ m ∈ pre, m.CallsOnce) (hpost : ∀ m ∈ post, m.CallsOnce)
    (a : A) (w : W) (kont : W → R) :
    next done raise n ⟨pre ++ mk :: post, h⟩ a w (fun w1 _ => kont w1)
      = nest (afterFirst done raise mk post) raise pre a w kont := by
  induction n generalizing pre a w kont with
  | zero => simp at h
  | succ n ih =>
    cases pre with
    | nil =>
      simp only [List.nil_append, next, nest, afterFirst]
      cases hb : mk a w with
      | ret w1 => rfl
      | panic v w1 => rfl
      | call a1 w1 k1 =>
        simp only [runBody]
        rw [next_callsOnce done raise n post _ hpost]
        congr 1
        funext w2
        exact runBody_nil done raise n (k1 w2) _ kont
    | cons m pre =>
      have hm := hpre m (by simp) a w
      simp only [List.cons_append, next, nest]
      cases hb : m a w with
      | ret w1 => rw [hb] at hm; exact absurd hm (by simp [Body.CallsOnce])
      | panic v w1 => rw [hb] at hm; exact absurd hm (by simp [Body.CallsOnce])
      | call a1 w1 k =>
        rw [hb] at hm
        simp only [runBody, invoke]
        have hk : (fun w2 (link2 : Cursor A W n) =>
            runBody raise (next done raise n) (k w2) link2
              (fun w3 (link3 : Cursor A W n) => kont w3)) =
            (fun w2 _ => invoke raise (nest (afterFirst done raise mk post) raise pre)
              (k w2) kont) := by
          funext w2 link2
          exact runBody_of_noCall raise _ _ (k w2) (hm w2) link2 kont
        rw [hk]
        exact ih pre _ (fun m1 h1 => hpre m1 (by simp [h1])) a1 w1 _

theorem range'_split (p q : Nat) :
    List.range' 0 (p + 1 + q) = List.range' 0 p ++ p :: List.range' (p + 1) q := by
  rw [show p + 1 + q = (q + 1) + p by omega, ← List.range'_append_1 0 p (q + 1)]
  simp [List.range'_succ]

theorem proceeds_callsOnce {A W : Type} (m : Middleware A W) (h : m.Proceeds) : m.CallsOnce := by
  intro a w
  have := h a w
  cases hb : m a w with
  | ret w1 => rw [hb] at this; exact absurd this (by simp [Body.Proceeds])
  | panic v w1 => rw [hb] at this; exact absurd this (by simp [Body.Proceeds])
  | call a1 w1 k =>
    rw [hb] at this
    intro w2
    obtain ⟨w3, h3⟩ := this w2
    rw [h3]
    trivial

theorem probe_callsOnce {A W E : Type} (e : E) (m : Middleware A W) (h : m.CallsOnce) :
    (probe e m).CallsOnce := by
  intro a tw
  have := h a tw.2
  unfold probe
  cases hb : m a tw.2 with
  | ret w1 => rw [hb] at this; exact absurd this (by simp [Body.CallsOnce])
  | panic v w1 => rw [hb] at this; exact absurd this (by simp [Body.CallsOnce])
  | call a1 w1 k =>
    rw [hb] at this
    simp only [liftBody, Body.CallsOnce]
    intro tw1
    exact liftBody_noCall _ _ (this tw1.2)

theorem probes_callsOnce {A W : Type} (ms : List (Middleware A W))
    (h : ∀ m ∈ ms, m.CallsOnce) (i : Nat) : ∀ m ∈ probes i ms, m.CallsOnce := by
  induction ms generalizing i with
  | nil => simp [probes]
  | cons m ms ih =>
    intro m1 hm1
    simp only [probes, List.mem_cons] at hm1
    rcases hm1 with hm1 | hm1
    · rw [hm1]; exact probe_callsOnce _ _ (h m (by simp))
    · exact ih (fun m2 h2 => h m2 (by simp [h2])) _ m1 hm1

theorem nest_probes_keeps {A W : Type}
    (D : Handler A (List Event × W) (Outcome (List Event × W))) (T : List Event)
    (hD : ∀ a t w kont, KeepsLog kont → (D a (t, w) kont).world.1 = t ++ T)
    (ms : List (Middleware A W)) (hms : ∀ m ∈ ms, m.CallsOnce) (i : Nat) (a : A)
    (t : List Event) (w : W)
    (kont : List Event × W → Outcome (List Event × W)) (hkont : KeepsLog kont) :
    (nest D Outcome.panicked (probes i ms) a (t, w) kont).world.1
      = t ++ (List.range' i ms.length).map Event.mw ++ T := by
  induction ms generalizing i a t w kont with
  | nil => simpa [probes, nest] using hD a t w kont hkont
  | cons m ms ih =>
    have hm := hms m (by simp) a w
    simp only [probes, nest, probe]
    cases hb : m a w with
    | ret w1 => rw [hb] at hm; exact absurd hm (by simp [Body.CallsOnce])
    | panic v w1 => rw [hb] at hm; exact absurd hm (by simp [Body.CallsOnce])
    | call a1 w1 k1 =>
      rw [hb] at hm
      simp only [liftBody, invoke]
      rw [ih (fun m1 h1 => hms m1 (by simp [h1])) (i + 1) a1 (t ++ [Event.mw i]) w1 _
        (keepsLog_resume _ k1 hm kont hkont)]
      simp [List.range'_succ]

theorem nest_probes_suffix {A W : Type} (done : A → W → W) (S : List Event)
    (ms : List (Middleware A W)) (hms : ∀ m ∈ ms, m.Proceeds) (i : Nat) (a : A)
    (t : List Event) (w : W)
    (kont : List Event × W → Outcome (List Event × W))
    (hkont : ∀ t1 w1, (kont (t1, w1)).world.1 = t1 ++ S) :
    (nest (terminalK (probeDone (fun a w => Outcome.returned (done a w)))) Outcome.panicked
        (probes i ms) a (t, w) kont).world.1
      = t ++ (List.range' i ms.length).map Event.mw ++ [Event.terminal] ++ S := by
  induction ms generalizing i a t w kont with
  | nil =>
    simp only [probes, nest, terminalK, probeDone]
    simpa using hkont (t ++ [Event.terminal]) (done a w)
  | cons m ms ih =>
    have hm := hms m (by simp) a w
    simp only [probes, nest, probe]
    cases hb : m a w with
    | ret w1 => rw [hb] at hm; exact absurd hm (by simp [Body.Proceeds])
    | panic v w1 => rw [hb] at hm; exact absurd hm (by simp [Body.Proceeds])
    | call a1 w1 k1 =>
      rw [hb] at hm
      simp only [liftBody, invoke]
      rw [ih (fun m1 h1 => hms m1 (by simp [h1])) (i + 1) a1 (t ++ [Event.mw i]) w1]
      · simp [List.range'_succ]
      · intro t1 w2
        obtain ⟨w3, h3⟩ := hm w2
        simp only [h3, liftBody, invoke]
        exact hkont t1 w3

theorem afterFirst_log {A W : Type} (done : A → W → W) (mk : Middleware A W)
    (post : List (Middleware A W)) (hk : mk.CallsTwice) (hpost : ∀ m ∈ post, m.Proceeds)
    (i : Nat) (a : A) (t : List Event) (w : W)
    (kont : List Event × W → Outcome (List Event × W)) (hkont : KeepsLog kont) :
    (afterFirst (terminalK (probeDone (fun a w => Outcome.returned (done a w))))
        Outcome.panicked (probe (Event.mw i) mk) (probes (i + 1) post) a (t, w) kont).world.1
      = t ++ ([Event.mw i] ++ (List.range' (i + 1) post.length).map Event.mw
          ++ [Event.terminal, Event.terminal]) := by
  have hm := hk a w
  simp only [afterFirst, probe]
  cases hb : mk a w with
  | ret w1 => rw [hb] at hm; exact absurd hm (by simp [Body.CallsTwice])
  | panic v w1 => rw [hb] at hm; exact absurd hm (by simp [Body.CallsTwice])
  | call a1 w1 k1 =>
    rw [hb] at hm
    simp only [liftBody]
    rw [nest_probes_suffix done [Event.terminal] post hpost]
    · simp
    · intro t1 w2
      have h2 := hm w2
      cases hk1 : k1 w2 with
      | ret w3 => rw [hk1] at h2; exact absurd h2 (by simp [Body.CallsOnce])
      | panic v w3 => rw [hk1] at h2; exact absurd h2 (by simp [Body.CallsOnce])
      | call a2 w3 k2 =>
        rw [hk1] at h2
        simp only [liftBody, invoke, terminalK, probeDone]
        exact keepsLog_resume _ k2 h2 kont hkont (t1 ++ [Event.terminal]) (done a2 w3)

/-- C20 (duplicate continuation calls), amended. Build a chain with `Use` from
`pre`, `mk` and `post`, where the middlewares of `pre` call their continuation
once, `mk` calls its continuation twice, and the middlewares of `post` call
theirs once and return, as does the terminal handler. The one closure `next`
of `Execute` moves one shared cursor: the first call of `mk` runs the
middlewares of `post` and the terminal handler and leaves the cursor at the
end, so that the second call runs the terminal handler alone. Every
middleware is invoked exactly once, and the terminal handler twice. -/
theorem C20_duplicate_calls {A W : Type} (pre post : List (Middleware A W))
    (mk : Middleware A W) (done : A → W → W)
    (hpre : ∀ m ∈ pre, m.CallsOnce) (hk : mk.CallsTwice) (hpost : ∀ m ∈ post, m.Proceeds)
    (a : A) (w : W) :
    ((chainOf (probes 0 (pre ++ mk :: post))).Execute
        (probeDone (fun a w => Outcome.returned (done a w))) a ([], w)).world.1
      = (List.range (pre.length + 1 + post.length)).map Event.mw
          ++ [Event.terminal, Event.terminal] := by
  unfold app.Execute app.ExecuteK
  have hlen : ∀ l : Link A (List Event × W), l = probes 0 pre ++ probe (Event.mw pre.length) mk
        :: probes (pre.length + 1) post → ∀ h : l.length ≤ l.length,
      (next (terminalK (probeDone (fun a w => Outcome.returned (done a w))))
        Outcome.panicked l.length ⟨l, h⟩ a ([], w) (fun w1 _ => Outcome.returned w1)).world.1
      = (List.range (pre.length + 1 + post.length)).map Event.mw
          ++ [Event.terminal, Event.terminal] := by
    intro l hl h
    subst hl
    rw [next_afterFirst _ _ _ _ _ _ h (probes_callsOnce pre hpre 0)
      (probes_callsOnce post (fun m hm => proceeds_callsOnce m (hpost m hm)) _),
      nest_probes_keeps _ _ (fun a t w kont hkont =>
        afterFirst_log done mk post hk hpost pre.length a t w kont hkont)
        pre hpre 0 a [] w _ keepsLog_returned]
    rw [List.range_eq_range', range'_split]
    simp
  refine hlen _ ?_ _
  rw [first_chainOf, probes_append]
  simp [probes]

/-- C20 at a chain of three: the first proceeds, the second calls its
continuation twice, the third proceeds. -/
theorem C20_duplicate_calls_witness :
    (∀ m ∈ [Sample.proceed], m.CallsOnce) ∧ Sample.twice.CallsTwice
    ∧ (∀ m ∈ [Sample.proceed], m.Proceeds)
    ∧ ((chainOf (probes 0 ([Sample.proceed] ++ Sample.twice :: [Sample.proceed]))).Execute
        (probeDone (fun a w => Outcome.returned ((fun _ w => w + 1000) a w))) ()
        ([], 0)).world.1
      = (List.range (1 + 1 + 1)).map Event.mw ++ [Event.terminal, Event.terminal] :=
  have h1 : ∀ m ∈ [Sample.proceed], m.CallsOnce := by
    intro m hm
    simp only [List.mem_singleton] at hm
    subst hm
    intro a w
    simp [Sample.proceed, Body.CallsOnce, Body.NoCall]
  have h2 : Sample.twice.CallsTwice := by
    intro a w
    simp [Sample.twice, Body.CallsTwice, Body.CallsOnce, Body.NoCall]
  have h3 : ∀ m ∈ [Sample.proceed], m.Proceeds := by
    intro m hm
    simp only [List.mem_singleton] at hm
    subst hm
    intro a w
    simp [Sample.proceed, Body.Proceeds]
  ⟨h1, h2, h3, C20_duplicate_calls [Sample.proceed] [Sample.proceed] Sample.twice
    (fun _ w => w + 1000) h1 h2 h3 () 0⟩

/-- C20 as stated fails: in the chain of a middleware that calls its
continuation twice and one that proceeds, the second middleware is invoked
once, not twice; only the terminal handler runs a second time. -/
theorem C20_duplicate_calls_counterexample :
    ((chainOf (probes 0 [Sample.twice, Sample.proceed])).Execute
        (probeDone Sample.finish) () ([], 0)).world.1
      = [Event.mw 0, Event.mw 1, Event.terminal, Event.terminal]
    ∧ ¬ (((chainOf (probes 0 [Sample.twice, Sample.proceed])).Execute
        (probeDone Sample.finish) () ([], 0)).world.1.count (Event.mw 1) = 2) := by
  decide

/-! ## Onion order -/

theorem bracket_atMostOnce {A W E : Type} (e x : E) (m : Middleware A W) (h : m.Proceeds) :
    (bracket e x m).AtMostOnce := by
  intro a tw
  have := h a tw.2
  unfold bracket
  cases hb : m a tw.2 with
  | ret w1 => rw [hb] at this; exact absurd this (by simp [Body.Proceeds])
  | panic v w1 => rw [hb] at this; exact absurd this (by simp [Body.Proceeds])
  | call a1 w1 k =>
    rw [hb] at this
    simp only [liftBodyExit, Body.AtMostOnce]
    intro tw1
    obtain ⟨w3, h3⟩ := this tw1.2
    simp [h3, liftBodyExit, Body.NoCall]

theorem brackets_atMostOnce {A W : Type} (ms : List (Middleware A W))
    (h : ∀ m ∈ ms, m.Proceeds) (i : Nat) : ∀ m ∈ brackets i ms, m.AtMostOnce := by
  induction ms generalizing i with
  | nil => simp [brackets]
  | cons m ms ih =>
    intro m1 hm1
    simp only [brackets, List.mem_cons] at hm1
    rcases hm1 with hm1 | hm1
    · rw [hm1]; exact bracket_atMostOnce _ _ _ (h m (by simp))
    · exact ih (fun m2 h2 => h m2 (by simp [h2])) _ m1 hm1

theorem nest_brackets {A W : Type} (done : A → W → W) (S : List OnionEvent)
    (ms : List (Middleware A W)) (hms : ∀ m ∈ ms, m.Proceeds) (i : Nat) (a : A)
    (t : List OnionEvent) (w : W)
    (kont : List OnionEvent × W → Outcome (List OnionEvent × W))
    (hkont : ∀ t1 w1, (kont (t1, w1)).world.1 = t1 ++ S) :
    (nest (terminalK (markDone OnionEvent.terminal done)) Outcome.panicked
        (brackets i ms) a (t, w) kont).world.1
      = t ++ (List.range' i ms.length).map OnionEvent.enter ++ [OnionEvent.terminal]
          ++ ((List.range' i ms.length).map OnionEvent.exit).reverse ++ S := by
  induction ms generalizing i a t w kont S with
  | nil =>
    simp only [brackets, nest, terminalK, markDone]
    simpa using hkont (t ++ [OnionEvent.terminal]) (done a w)
  | cons m ms ih =>
    have hm := hms m (by simp) a w
    simp only [brackets, nest, bracket]
    cases hb : m a w with
    | ret w1 => rw [hb] at hm; exact absurd hm (by simp [Body.Proceeds])
    | panic v w1 => rw [hb] at hm; exact absurd hm (by simp [Body.Proceeds])
    | call a1 w1 k1 =>
      rw [hb] at hm
      simp only [liftBodyExit, invoke]
      rw [ih ([OnionEvent.exit i] ++ S) (fun m1 h1 => hms m1 (by simp [h1])) (i + 1) a1
        (t ++ [OnionEvent.enter i]) w1]
      · simp [List.range'_succ]
      · intro t1 w2
        obtain ⟨w3, h3⟩ := hm w2
        simp only [h3, liftBodyExit, invoke]
        rw [hkont]
        simp

/-- C19 (onion order). Build a chain with `Use` from middlewares `ms` each of
which calls its continuation once and then returns, each recording `enter i`
when it is invoked and `exit i` when it returns, with a terminal handler that
returns. Then `Execute` leaves the log `enter 0, ..., enter (n - 1)`,
`terminal`, `exit (n - 1), ..., exit 0`: what a middleware does after its
call of the continuation happens after everything downstream has finished. -/
theorem C19_onion_order {A W : Type} (ms : List (Middleware A W)) (done : A → W → W)
    (hms : ∀ m ∈ ms, m.Proceeds) (a : A) (w : W) :
    ((chainOf (brackets 0 ms)).Execute (markDone OnionEvent.terminal done) a ([], w)).world.1
      = (List.range ms.length).map OnionEvent.enter ++ [OnionEvent.terminal]
          ++ ((List.range ms.length).map OnionEvent.exit).reverse := by
  rw [Execute_eq_nest _ (tame_of_atMostOnce _ (brackets_atMostOnce ms hms 0)),
    nest_brackets done [] ms hms 0 a [] w _ (fun t1 w1 => by simp [Outcome.world])]
  simp [List.range_eq_range']

/-- C19 at a chain of two middlewares that proceed. -/
theorem C19_onion_order_witness :
    (∀ m ∈ [Sample.proceed, Sample.proceed], m.Proceeds)
    ∧ ((chainOf (brackets 0 [Sample.proceed, Sample.proceed])).Execute
        (markDone OnionEvent.terminal (fun _ w => w + 1000)) () ([], 0)).world.1
      = (List.range 2).map OnionEvent.enter ++ [OnionEvent.terminal]
          ++ ((List.range 2).map OnionEvent.exit).reverse :=
  have h1 : ∀ m ∈ [Sample.proceed, Sample.proceed], m.Proceeds := by
    intro m hm
    simp only [List.mem_cons, List.mem_singleton, or_self, List.not_mem_nil, or_false] at hm
    subst hm
    intro a w
    simp [Sample.proceed, Body.Proceeds]
  ⟨h1, C19_onion_order [Sample.proceed, Sample.proceed] (fun _ w => w + 1000) h1 () 0⟩

/-! ## Hooks over a sequence of calls, and derived contexts -/

theorem call_logged {S : Type} (ws : Writers S) (fns : List (BeforeResponseFunc S))
    (ctx rw r st : Nat) (x : Call) (h : Heap (List CtxEvent × S)) :
    (context.call (logWriters st ws) ⟨ctx, rw, r, st, logHooks st 0 fns⟩ h x).store.1
        = h.store.1 ++ Spec.callEvents fns.length rw (h.cells st) x
    ∧ (context.call (logWriters st ws) ⟨ctx, rw, r, st, logHooks st 0 fns⟩ h x).cells st
        = Spec.statusStep (h.cells st) x := by
  cases x with
  | WriteHeader code =>
    simp only [context.call, WriteHeader_logged, Spec.callEvents, Spec.statusStep,
      Function.update_same, List.append_assoc, and_self]
  | Write b =>
    constructor
    · simp only [context.call, Spec.callEvents]
      unfold context.Write
      by_cases h0 : h.cells st = 0
      · simp only [if_pos h0, WriteHeader_logged]
        simp only [logWriters, Function.update_same, h0]
        simp
      · simp only [if_neg h0, logWriters]
        simp
    · have := status_Write (logWriters st ws) ⟨ctx, rw, r, st, logHooks st 0 fns⟩ b h
      simpa [context.Status, context.call, Spec.statusStep] using this

theorem calls_logged {S : Type} (ws : Writers S) (fns : List (BeforeResponseFunc S))
    (ctx rw r st : Nat) (cs : List Call) (h : Heap (List CtxEvent × S)) :
    (context.calls (logWriters st ws) ⟨ctx, rw, r, st, logHooks st 0 fns⟩ cs h).store.1
      = h.store.1 ++ Spec.callsEvents fns.length rw (h.cells st) cs := by
  induction cs generalizing h with
  | nil => simp [context.calls, Spec.callsEvents]
  | cons x cs ih =>
    simp only [context.calls, List.foldl_cons] at ih ⊢
    rw [ih, (call_logged ws fns ctx rw r st x h).1, (call_logged ws fns ctx rw r st x h).2]
    simp [Spec.callsEvents]

theorem filterMap_hook_range (n rw : Nat) (s : Int) :
    ((List.range n).map (fun i => CtxEvent.hook i rw s)).filterMap CtxEvent.hookIndex
      = List.range n := by
  rw [List.filterMap_map]
  have : (CtxEvent.hookIndex ∘ fun i => CtxEvent.hook i rw s) = some := by
    funext i; rfl
  rw [this, List.filterMap_some]

theorem countP_hook_range (n rw : Nat) (s : Int) :
    ((List.range n).map (fun i => CtxEvent.hook i rw s)).countP CtxEvent.isFlush = 0 := by
  rw [List.countP_eq_zero]
  intro e he
  simp only [List.mem_map] at he
  obtain ⟨i, _, rfl⟩ := he
  simp [CtxEvent.isFlush]

theorem callEvents_hooks (n rw : Nat) (s : Int) (x : Call) :
    (Spec.callEvents n rw s x).filterMap CtxEvent.hookIndex
      = (List.replicate ((Spec.callEvents n rw s x).countP CtxEvent.isFlush)
          (List.range n)).flatten := by
  cases x with
  | WriteHeader code =>
    simp only [Spec.callEvents, List.filterMap_append, filterMap_hook_range,
      List.countP_append, countP_hook_range]
    simp [CtxEvent.hookIndex, CtxEvent.isFlush]
  | Write b =>
    by_cases h0 : s = 0
    · simp only [Spec.callEvents, if_pos h0, List.filterMap_append, filterMap_hook_range,
        List.countP_append, countP_hook_range]
      simp [CtxEvent.hookIndex, CtxEvent.isFlush]
    · simp [Spec.callEvents, if_neg h0, CtxEvent.hookIndex, CtxEvent.isFlush]

theorem callsEvents_hooks (n rw : Nat) (s : Int) (cs : List Call) :
    (Spec.callsEvents n rw s cs).filterMap CtxEvent.hookIndex
      = (List.replicate ((Spec.callsEvents n rw s cs).countP CtxEvent.isFlush)
          (List.range n)).flatten := by
  induction cs generalizing s with
  | nil => simp [Spec.callsEvents]
  | cons x cs ih =>
    simp only [Spec.callsEvents, List.filterMap_append, List.countP_append, ih,
      callEvents_hooks, List.replicate_add, List.flatten_append]

/-- C11 (hooks and header flushes), amended. On a context with hooks registered
by `Before`, every header flush, that is every `WriteHeader` call and every
`Write` made while the status is `0`, first runs each registered hook once, in
registration order: a sequence of calls records, call by call, the hooks and
then the flush. Each hook is therefore invoked once for every header flush of
the sequence (the numbers of the hooks recorded are `0, ..., n - 1` repeated
as many times as there are flushes), and exactly once in total only when the
sequence makes a single flush. -/
theorem C11_hooks_per_flush {S : Type} (ws : Writers S) (fns : List (BeforeResponseFunc S))
    (ctx rw r st : Nat) (cs : List Call) (h : Heap (List CtxEvent × S)) :
    (context.calls (logWriters st ws)
        ((logHooks st 0 fns).foldl context.Before ⟨ctx, rw, r, st, []⟩) cs h).store.1
      = h.store.1 ++ Spec.callsEvents fns.length rw (h.cells st) cs
    ∧ (Spec.callsEvents fns.length rw (h.cells st) cs).filterMap CtxEvent.hookIndex
      = (List.replicate
          ((Spec.callsEvents fns.length rw (h.cells st) cs).countP CtxEvent.isFlush)
          (List.range fns.length)).flatten := by
  refine ⟨?_, callsEvents_hooks _ _ _ _⟩
  rw [foldl_Before]
  simp only [List.nil_append]
  exact calls_logged ws fns ctx rw r st cs h

/-- C11 as stated fails: on a context with one hook, the two calls
`WriteHeader(200)` and `WriteHeader(500)` invoke the hook twice, the second
time before the second flush. -/
theorem C11_hooks_per_flush_counterexample :
    (context.calls (logWriters 7 Sample.nullWriters)
        ((logHooks 7 0 [Sample.idle]).foldl context.Before ⟨0, 1, 2, 7, []⟩)
        [Call.WriteHeader 200, Call.WriteHeader 500] Sample.emptyHeap).store.1
      = [CtxEvent.hook 0 1 0, CtxEvent.writeHeader 1 200 200,
         CtxEvent.hook 0 1 200, CtxEvent.writeHeader 1 500 500]
    ∧ ¬ (((context.calls (logWriters 7 Sample.nullWriters)
        ((logHooks 7 0 [Sample.idle]).foldl context.Before ⟨0, 1, 2, 7, []⟩)
        [Call.WriteHeader 200, Call.WriteHeader 500] Sample.emptyHeap).store.1.filterMap
          CtxEvent.hookIndex).count 0 = 1) := by
  decide

/-- C13 (Evolve shares the status cell). Let `d` be `c.Evolve(p)` or
`c.WithValue(k, v)`. After any sequence of `WriteHeader` and `Write` calls,
each made through `c` or through `d`, `c.Status()` equals `d.Status()`; a
`WriteHeader(code)` made through either sets the status the other one reports
to `code`; and `c.Req()` equals `d.Req()`. -/
theorem C13_shared_status {S : Type} (ws : Writers S) (wv : Nat → Nat → Nat → Nat)
    (c : context S) (p key val : Nat) (cs : List (Bool × Call)) (code : Int) (h : Heap S) :
    (c.Status (context.calls2 ws c (c.Evolve p) cs h)
        = (c.Evolve p).Status (context.calls2 ws c (c.Evolve p) cs h)
      ∧ c.Status ((c.Evolve p).WriteHeader ws code h) = code
      ∧ (c.Evolve p).Status (c.WriteHeader ws code h) = code
      ∧ c.Req = (c.Evolve p).Req)
    ∧ (c.Status (context.calls2 ws c (c.WithValue wv key val) cs h)
        = (c.WithValue wv key val).Status (context.calls2 ws c (c.WithValue wv key val) cs h)
      ∧ c.Status ((c.WithValue wv key val).WriteHeader ws code h) = code
      ∧ (c.WithValue wv key val).Status (c.WriteHeader ws code h) = code
      ∧ c.Req = (c.WithValue wv key val).Req) := by
  refine ⟨⟨rfl, ?_, ?_, rfl⟩, ⟨rfl, ?_, ?_, rfl⟩⟩
  · exact status_WriteHeader ws (c.Evolve p) code h
  · exact status_WriteHeader ws c code h
  · exact status_WriteHeader ws (c.WithValue wv key val) code h
  · exact status_WriteHeader ws c code h

/-! ## The dispatcher of `app.go` -/

theorem httpError_recorder {X : Type} (ref : WriterRef) (msg : List Char) (code : Int)
    (w : Exchange X) :
    (httpError ref msg code w).rw.ResponseWriter = Recorder.Error msg code w.rw.ResponseWriter := by
  cases ref <;> rfl

theorem recorder_Error_fresh (msg : List Char) (code : Int) (rec : Recorder)
    (h : rec.wroteHeader = false) :
    (Recorder.Error msg code rec).wroteHeader = true
    ∧ (Recorder.Error msg code rec).code = code
    ∧ (Recorder.Error msg code rec).body = rec.body ++ bytesOf (msg ++ ['\n']) := by
  simp [Recorder.Error, Recorder.Write, Recorder.WriteHeader, Recorder.SetHeader, h]

theorem quiet_atMostOnce {A X : Type} (m : Middleware A X) (h : m.Proceeds) :
    (quiet m).AtMostOnce := by
  intro a w
  have := h a w.ext
  unfold quiet
  cases hb : m a w.ext with
  | ret w1 => rw [hb] at this; exact absurd this (by simp [Body.Proceeds])
  | panic v w1 => rw [hb] at this; exact absurd this (by simp [Body.Proceeds])
  | call a1 w1 k =>
    rw [hb] at this
    simp only [quietBody, Body.AtMostOnce]
    intro w2
    obtain ⟨w3, h3⟩ := this w2.ext
    simp [h3, quietBody, Body.NoCall]

theorem nest_quiet {X : Type} (ms : List (Middleware Args X)) (hms : ∀ m ∈ ms, m.Proceeds)
    (a : Args) (w : Exchange X) (kont : Exchange X → Outcome (Exchange X))
    (hkont : ∀ w1, ∃ w2, kont w1 = Outcome.returned w2
      ∧ w2.rw.ResponseWriter = w1.rw.ResponseWriter) :
    ∃ w2, nest (terminalK notFoundHandler) Outcome.panicked (ms.map quiet) a w kont
        = Outcome.returned w2
      ∧ w2.rw.ResponseWriter
        = Recorder.Error "404 page not found".toList 404 w.rw.ResponseWriter := by
  induction ms generalizing a w kont with
  | nil =>
    obtain ⟨w2, h1, h2⟩ := hkont (httpNotFound a w)
    exact ⟨w2, by simpa [nest, terminalK, notFoundHandler] using h1,
      by rw [h2]; exact httpError_recorder _ _ _ _⟩
  | cons m ms ih =>
    have hm := hms m (by simp) a w.ext
    simp only [List.map_cons, nest, quiet]
    cases hb : m a w.ext with
    | ret w1 => rw [hb] at hm; exact absurd hm (by simp [Body.Proceeds])
    | panic v w1 => rw [hb] at hm; exact absurd hm (by simp [Body.Proceeds])
    | call a1 x1 k =>
      rw [hb] at hm
      simp only [quietBody, invoke]
      refine ih (fun m1 h1 => hms m1 (by simp [h1])) a1 { w with ext := x1 } _ ?_
      intro w1
      obtain ⟨x2, h2⟩ := hm w1.ext
      obtain ⟨w2, h3, h4⟩ := hkont { w1 with ext := x2 }
      exact ⟨w2, by simpa [h2, quietBody, invoke] using h3, h4⟩

theorem WebGo.httpError_writer {X : Type} (c : context (WebStore X)) (msg : List Char)
    (h : Heap (WebStore X)) (hc : c.beforeFuncs = []) :
    (WebGo.httpError c msg 404 h).store.writer = Recorder.Error msg 404 h.store.writer := by
  simp [WebGo.httpError, context.Write, context.WriteHeader, runBefore, recWriters, hc,
    Recorder.Error]

theorem webgo_quiet_atMostOnce {X : Type} (m : Middleware (context (WebStore X)) X)
    (h : m.Proceeds) : (WebGo.quiet m).AtMostOnce := by
  intro c w
  have := h c w.store.ext
  unfold WebGo.quiet
  cases hb : m c w.store.ext with
  | ret w1 => rw [hb] at this; exact absurd this (by simp [Body.Proceeds])
  | panic v w1 => rw [hb] at this; exact absurd this (by simp [Body.Proceeds])
  | call a1 w1 k =>
    rw [hb] at this
    simp only [WebGo.quietBody, Body.AtMostOnce]
    intro w2
    obtain ⟨w3, h3⟩ := this w2.store.ext
    simp [h3, WebGo.quietBody, Body.NoCall]

theorem webgo_nest_quiet {X : Type} (ms : List (Middleware (context (WebStore X)) X))
    (hms : ∀ m ∈ ms, m.Proceeds) (hplain : ∀ m ∈ ms, m.PassesPlain)
    (c : context (WebStore X)) (hc : c.beforeFuncs = []) (h : Heap (WebStore X))
    (kont : Heap (WebStore X) → Outcome (Heap (WebStore X)))
    (hkont : ∀ h1, ∃ h2, kont h1 = Outcome.returned h2 ∧ h2.store.writer = h1.store.writer) :
    ∃ h2, nest (terminalK (fun c h2 =>
            Outcome.returned (WebGo.httpError c "404 page not found".toList 404 h2)))
          Outcome.panicked (ms.map WebGo.quiet) c h kont = Outcome.returned h2
      ∧ h2.store.writer = Recorder.Error "404 page not found".toList 404 h.store.writer := by
  induction ms generalizing c h kont with
  | nil =>
    obtain ⟨h2, h1, h3⟩ := hkont (WebGo.httpError c "404 page not found".toList 404 h)
    exact ⟨h2, by simpa [nest, terminalK] using h1,
      by rw [h3]; exact WebGo.httpError_writer _ _ _ hc⟩
  | cons m ms ih =>
    have hm := hms m (by simp) c h.store.ext
    have hp := hplain m (by simp) c h.store.ext hc
    simp only [List.map_cons, nest, WebGo.quiet]
    cases hb : m c h.store.ext with
    | ret w1 => rw [hb] at hm; exact absurd hm (by simp [Body.Proceeds])
    | panic v w1 => rw [hb] at hm; exact absurd hm (by simp [Body.Proceeds])
    | call c1 x1 k =>
      rw [hb] at hm hp
      simp only [WebGo.quietBody, invoke]
      refine ih (fun m1 h1 => hms m1 (by simp [h1])) (fun m1 h1 => hplain m1 (by simp [h1]))
        c1 hp.1 _ _ ?_
      intro w1
      obtain ⟨x2, h2⟩ := hm w1.store.ext
      obtain ⟨w2, h3, h4⟩ := hkont ⟨w1.cells, w1.fresh, ⟨w1.store.writer, w1.store.logged, x2⟩⟩
      exact ⟨w2, by simpa [h2, WebGo.quietBody, invoke] using h3, h4⟩

theorem WebGo.exhausted_404 {X : Type} (ns : List (Middleware (context (WebStore X)) X))
    (hns : ∀ m ∈ ns, m.Proceeds) (hplain : ∀ m ∈ ns, m.PassesPlain)
    (cancelable rw r : Nat) (h : Heap (WebStore X))
    (hh : h.store.writer.wroteHeader = false) :
    ∃ h2, WebGo.ServeHTTP (chainOf (ns.map WebGo.quiet)) cancelable rw r h = Outcome.returned h2
      ∧ h2.store.writer.wroteHeader = true
      ∧ h2.store.writer.code = 404
      ∧ h2.store.writer.body = h.store.writer.body ++ bytesOf "404 page not found\n".toList := by
  have htame : Tame (ns.map WebGo.quiet) := tame_of_atMostOnce _ (by
    intro m hm
    simp only [List.mem_map] at hm
    obtain ⟨m0, h0, rfl⟩ := hm
    exact webgo_quiet_atMostOnce m0 (hns m0 h0))
  obtain ⟨h2, h1, h3⟩ := webgo_nest_quiet ns hns hplain (CreateContextWith cancelable rw r h).1 rfl
    (CreateContextWith cancelable rw r h).2 Outcome.returned (fun w1 => ⟨w1, rfl, rfl⟩)
  refine ⟨h2, ?_, ?_⟩
  · unfold WebGo.ServeHTTP
    rw [Execute_eq_nest _ htame, h1]
    rfl
  · rw [h3]
    exact recorder_Error_fresh _ 404 _ hh

/-- C14 (an exhausted chain gives 404). Take a chain, possibly empty, of
middlewares each of which calls its continuation once, returns, and writes
nothing to the response, and let `ServeHTTP` be called with a response writer
to which nothing was written yet. Then `ServeHTTP` returns, and the response
has the status `404` and the body `"404 page not found\n"`. This holds for the
dispatcher of `app.go` (chain `ms`) and for the one of `web.go` (chain `ns`,
whose middlewares hand on a context without `Before` hooks). -/
theorem C14_exhausted_chain_404 {X : Type} (ms : List (Middleware Args X))
    (hms : ∀ m ∈ ms, m.Proceeds) (r : Nat) (w : Exchange X)
    (hw : w.rw.ResponseWriter.wroteHeader = false)
    (ns : List (Middleware (context (WebStore X)) X))
    (hns : ∀ m ∈ ns, m.Proceeds) (hplain : ∀ m ∈ ns, m.PassesPlain)
    (cancelable rw : Nat) (h : Heap (WebStore X))
    (hh : h.store.writer.wroteHeader = false) :
    (∃ w2, (chainOf (ms.map quiet)).ServeHTTP r w = Outcome.returned w2
      ∧ w2.rw.ResponseWriter.wroteHeader = true
      ∧ w2.rw.ResponseWriter.code = 404
      ∧ w2.rw.ResponseWriter.body
        = w.rw.ResponseWriter.body ++ bytesOf "404 page not found\n".toList)
    ∧ (∃ h2, WebGo.ServeHTTP (chainOf (ns.map WebGo.quiet)) cancelable rw r h
        = Outcome.returned h2
      ∧ h2.store.writer.wroteHeader = true
      ∧ h2.store.writer.code = 404
      ∧ h2.store.writer.body
        = h.store.writer.body ++ bytesOf "404 page not found\n".toList) := by
  refine ⟨?_, WebGo.exhausted_404 ns hns hplain cancelable rw r h hh⟩
  have htame : Tame (ms.map quiet) := tame_of_atMostOnce _ (by
    intro m hm
    simp only [List.mem_map] at hm
    obtain ⟨m0, h0, rfl⟩ := hm
    exact quiet_atMostOnce m0 (hms m0 h0))
  obtain ⟨w2, h1, h2⟩ := nest_quiet ms hms ⟨WriterRef.wrapped, r⟩
    { w with rw := ⟨w.rw.ResponseWriter, 0, false⟩ } Outcome.returned (fun w1 => ⟨w1, rfl, rfl⟩)
  refine ⟨w2, ?_, ?_⟩
  · unfold app.ServeHTTP
    rw [Execute_eq_nest _ htame, h1]
    rfl
  · rw [h2]
    exact recorder_Error_fresh _ 404 _ hw

/-- C14 at the chain of `TestNotFound` for `app.go`, and at its counterpart for
`web.go`: both responses have the status `404`. -/
theorem C14_exhausted_chain_404_witness :
    (∀ m ∈ [Sample.pass], m.Proceeds)
    ∧ Sample.fresh.rw.ResponseWriter.wroteHeader = false
    ∧ Sample.webHeap.store.writer.wroteHeader = false
    ∧ ((chainOf ([Sample.pass].map quiet)).ServeHTTP 1 Sample.fresh).world.rw.ResponseWriter.code
      = 404
    ∧ (WebGo.ServeHTTP (chainOf ([Sample.webPass].map
        WebGo.quiet)) 0 1 1 Sample.webHeap).world.store.writer.code = 404
    ∧ ((∃ w2, (chainOf ([Sample.pass].map quiet)).ServeHTTP 1 Sample.fresh = Outcome.returned w2
        ∧ w2.rw.ResponseWriter.wroteHeader = true
        ∧ w2.rw.ResponseWriter.code = 404
        ∧ w2.rw.ResponseWriter.body
          = Sample.fresh.rw.ResponseWriter.body ++ bytesOf "404 page not found\n".toList)
      ∧ (∃ h2, WebGo.ServeHTTP (chainOf ([Sample.webPass].map
            WebGo.quiet)) 0 1 1 Sample.webHeap = Outcome.returned h2
        ∧ h2.store.writer.wroteHeader = true
        ∧ h2.store.writer.code = 404
        ∧ h2.store.writer.body
          = Sample.webHeap.store.writer.body ++ bytesOf "404 page not found\n".toList)) :=
  have h1 : ∀ m ∈ [Sample.pass], m.Proceeds := by
    intro m hm
    simp only [List.mem_singleton] at hm
    subst hm
    intro a w
    simp [Sample.pass, Body.Proceeds]
  have h2 : ∀ m ∈ [Sample.webPass], m.Proceeds := by
    intro m hm
    simp only [List.mem_singleton] at hm
    subst hm
    intro a w
    simp [Sample.webPass, Body.Proceeds]
  have h3 : ∀ m ∈ [Sample.webPass], m.PassesPlain := by
    intro m hm
    simp only [List.mem_singleton] at hm
    subst hm
    intro c x hc
    simp [Sample.webPass, Body.AllCalls, hc]
  ⟨h1, rfl, rfl, by decide, by decide,
    C14_exhausted_chain_404 [Sample.pass] h1 1 Sample.fresh rfl [Sample.webPass] h2 h3 0 1
      Sample.webHeap rfl⟩

theorem tame_short {A W : Type} (pre post : List (Middleware A W)) (mk : Middleware A W)
    (hpre : ∀ m ∈ pre, m.CallsOnce) (hk : mk.NoCall) : Tame (pre ++ mk :: post) := by
  induction pre with
  | nil => exact Or.inl hk
  | cons m pre ih =>
    exact Or.inr ⟨fun a w => callsOnce_atMostOnce _ (hpre m (by simp) a w),
      ih (fun m1 h1 => hpre m1 (by simp [h1]))⟩

theorem nest_short_indep {A W R : Type} (done1 done2 : Handler A W R)
    (raise : PanicValue → W → R) (pre post : List (Middleware A W)) (mk : Middleware A W)
    (hk : mk.NoCall) :
    nest done1 raise (pre ++ mk :: post) = nest done2 raise (pre ++ mk :: post) := by
  induction pre with
  | nil =>
    funext a w kont
    have := hk a w
    simp only [List.nil_append, nest]
    cases hb : mk a w with
    | ret w1 => rfl
    | panic v w1 => rfl
    | call a1 w1 k => rw [hb] at this; exact absurd this (by simp [Body.NoCall])
  | cons m pre ih =>
    funext a w kont
    rw [List.cons_append]
    simp only [nest]
    rw [ih]

/-- C15 (clean completion adds nothing). Take a chain in which a middleware
`mk` does not call its continuation and the middlewares before it call theirs
once, and let its execution, with whatever terminal handler, return and leave
the exchange `w1`. Then `ServeHTTP` of `app.go` returns and leaves exactly
`w1`: the response is the status, headers and body the middlewares wrote, and
neither the terminal handler nor the error handler of the dispatcher added to
it. -/
theorem C15_clean_completion {X : Type} (pre post : List (Middleware Args (Exchange X)))
    (mk : Middleware Args (Exchange X)) (done : Args → Exchange X → Outcome (Exchange X))
    (hpre : ∀ m ∈ pre, m.CallsOnce) (hk : mk.NoCall) (r : Nat) (w w1 : Exchange X)
    (hret : (chainOf (pre ++ mk :: post)).Execute done ⟨WriterRef.wrapped, r⟩
      { w with rw := ⟨w.rw.ResponseWriter, 0, false⟩ } = Outcome.returned w1) :
    (chainOf (pre ++ mk :: post)).ServeHTTP r w = Outcome.returned w1 := by
  have htame := tame_short pre post mk hpre hk
  rw [Execute_eq_nest _ htame,
    nest_short_indep (terminalK done) (terminalK notFoundHandler) _ pre post mk hk] at hret
  unfold app.ServeHTTP
  rw [Execute_eq_nest _ htame, hret]
  rfl

/-- C15 at the chain of `TestServeHTTP`: the first middleware sets the header
`X-Foo` and proceeds, the second writes `"foobar"` and stops; the response has
the status `200`, the body `"foobar"` and the header `X-Foo: bar`, and nothing
else. -/
theorem C15_clean_completion_witness :
    (∀ m ∈ [Sample.setFoo], m.CallsOnce) ∧ Sample.writeFoobar.NoCall
    ∧ (chainOf ([Sample.setFoo] ++ Sample.writeFoobar :: [])).ServeHTTP 1 Sample.fresh
      = Outcome.returned
          ⟨⟨⟨true, 200, [("X-Foo".toList, "bar".toList)], bytesOf "foobar".toList⟩, 200, true⟩,
            [], 0⟩ :=
  have h1 : ∀ m ∈ [Sample.setFoo], m.CallsOnce := by
    intro m hm
    simp only [List.mem_singleton] at hm
    subst hm
    intro a w
    simp [Sample.setFoo, Body.CallsOnce, Body.NoCall]
  have h2 : Sample.writeFoobar.NoCall := by
    intro a w
    simp [Sample.writeFoobar, Body.NoCall]
  ⟨h1, h2, C15_clean_completion [Sample.setFoo] [] Sample.writeFoobar notFoundHandler h1 h2 1
    Sample.fresh _ (by decide)⟩


theorem app_fault_generic {X : Type} (a : app Args (Exchange X)) (r : Nat) (w w1 : Exchange X)
    (e : List Char)
    (hex : a.Execute notFoundHandler ⟨WriterRef.wrapped, r⟩
      { w with rw := ⟨w.rw.ResponseWriter, 0, false⟩ } = Outcome.panicked (.error e) w1)
    (hw1 : w1.rw.ResponseWriter.wroteHeader = false) :
    ∃ w2, a.ServeHTTP r w = Outcome.returned w2
      ∧ w2.rw.ResponseWriter.code = 500
      ∧ w2.rw.ResponseWriter.body
        = w1.rw.ResponseWriter.body ++ bytesOf (StatusText500 ++ ['\n'])
      ∧ w2.logged = w1.logged ++ ["PANIC: ".toList ++ e] := by
  refine ⟨app.handleError (some e) w1, ?_, ?_⟩
  · unfold app.ServeHTTP
    rw [hex]
  · have h1 : (app.handleError (some e) w1).rw.ResponseWriter
        = Recorder.Error StatusText500 500 w1.rw.ResponseWriter :=
      httpError_recorder WriterRef.wrapped StatusText500 500 w1
    have h2 := recorder_Error_fresh StatusText500 500 _ hw1
    rw [h1]
    exact ⟨h2.2.1, h2.2.2, rfl⟩

theorem WebGo.fault_body {X : Type} (a : app (context (WebStore X)) (Heap (WebStore X)))
    (cancelable rw r : Nat) (h h1 : Heap (WebStore X)) (v : PanicValue)
    (hex : a.Execute
      (fun c h2 => .returned (WebGo.httpError c "404 page not found".toList 404 h2))
      (CreateContextWith cancelable rw r h).1 (CreateContextWith cancelable rw r h).2
        = Outcome.panicked v h1)
    (hw1 : h1.store.writer.wroteHeader = false) :
    ∃ h2, WebGo.ServeHTTP a cancelable rw r h = Outcome.returned h2
      ∧ h2.store.writer.code = 500
      ∧ h2.store.writer.body = h1.store.writer.body ++ bytesOf (v.text ++ ['\n'])
      ∧ h2.store.logged = h1.store.logged ++ ["PANIC: ".toList ++ v.text] := by
  refine ⟨WebGo.handleError (some v.text) h1, ?_, ?_⟩
  · unfold WebGo.ServeHTTP
    rw [hex]
  · have h2 := recorder_Error_fresh v.text 500 _ hw1
    exact ⟨h2.2.1, h2.2.2, rfl⟩

theorem WebGo.captures_every_panic {X : Type}
    (a : app (context (WebStore X)) (Heap (WebStore X))) (cancelable rw r : Nat)
    (h : Heap (WebStore X)) :
    ∃ h2, WebGo.ServeHTTP a cancelable rw r h = Outcome.returned h2 := by
  unfold WebGo.ServeHTTP
  split
  · exact ⟨_, rfl⟩
  · exact ⟨_, rfl⟩

theorem app_non_error_escapes {X : Type} (a : app Args (Exchange X)) (r : Nat)
    (w w1 : Exchange X) (s : List Char)
    (hex : a.Execute notFoundHandler ⟨WriterRef.wrapped, r⟩
      { w with rw := ⟨w.rw.ResponseWriter, 0, false⟩ } = Outcome.panicked (.other s) w1) :
    a.ServeHTTP r w = Outcome.panicked typeAssertionPanic w1 := by
  unfold app.ServeHTTP
  rw [hex]

/-- C16 (faults give a generic 500), evaluated on the dispatcher of `web.go`
at a chain whose only middleware panics with an error, nothing having been
written. The response has the status `500`, but its body is the text of the
error followed by a newline, not the status text of `500`; two errors with
different texts give different bodies. The dispatcher of `app.go`, at the
same chain, answers with the status text for both. -/
theorem C16_fault_body :
    (WebGo.ServeHTTP (chainOf [Sample.webFail (.error "secret".toList)]) 0 1 2
        Sample.webHeap).world.store.writer.code = 500
    ∧ (WebGo.ServeHTTP (chainOf [Sample.webFail (.error "secret".toList)]) 0 1 2
        Sample.webHeap).world.store.writer.body = bytesOf "secret\n".toList
    ∧ (WebGo.ServeHTTP (chainOf [Sample.webFail (.error "secret".toList)]) 0 1 2
        Sample.webHeap).world.store.writer.body ≠ bytesOf (StatusText500 ++ ['\n'])
    ∧ (WebGo.ServeHTTP (chainOf [Sample.webFail (.error "secret".toList)]) 0 1 2
        Sample.webHeap).world.store.writer.body
      ≠ (WebGo.ServeHTTP (chainOf [Sample.webFail (.error "other".toList)]) 0 1 2
        Sample.webHeap).world.store.writer.body
    ∧ ((chainOf [Sample.fail (.error "secret".toList)]).ServeHTTP 2
        Sample.fresh).world.rw.ResponseWriter.body = bytesOf (StatusText500 ++ ['\n'])
    ∧ ((chainOf [Sample.fail (.error "other".toList)]).ServeHTTP 2
        Sample.fresh).world.rw.ResponseWriter.body = bytesOf (StatusText500 ++ ['\n']) := by
  decide

/-- C17 (every fault is captured), evaluated on the dispatcher of `app.go` at
a chain whose only middleware panics with the string `"boom"`. The type
assertion `err.(error)` of the deferred function panics, so `ServeHTTP` does
not return normally: the panic leaves the goroutine, and nothing was written
to the response, which has no status `500`. The dispatcher of `web.go`, at the
same chain, returns with the status `500`. -/
theorem C17_non_error_fault :
    (chainOf [Sample.fail (.other "boom".toList)]).ServeHTTP 2 Sample.fresh
      = Outcome.panicked typeAssertionPanic ⟨⟨⟨false, 0, [], []⟩, 0, false⟩, [], 0⟩
    ∧ (∀ w2, (chainOf [Sample.fail (.other "boom".toList)]).ServeHTTP 2 Sample.fresh
        ≠ Outcome.returned w2)
    ∧ (∃ h2, WebGo.ServeHTTP (chainOf [Sample.webFail (.other "boom".toList)]) 0 1 2
          Sample.webHeap = Outcome.returned h2
        ∧ h2.store.writer.code = 500) := by
  refine ⟨by decide, ?_, ?_⟩
  · intro w2 h
    have h1 : (chainOf [Sample.fail (.other "boom".toList)]).ServeHTTP 2 Sample.fresh
        = Outcome.panicked typeAssertionPanic ⟨⟨⟨false, 0, [], []⟩, 0, false⟩, [], 0⟩ := by
      decide
    rw [h1] at h
    cases h
  · exact ⟨_, rfl, by decide⟩


theorem asDefault_handlerOf {X : Type} (ops : List WriterOp) (r : Nat) (w : Exchange X) :
    Exchange.asDefault ⟨WriterRef.wrapped, r⟩ (ops.foldl (Exchange.op WriterRef.wrapped) w)
      = some (w.rw.written || ops.any WriterOp.writes) := by
  induction ops generalizing w with
  | nil => simp [Exchange.asDefault, responseWriter.Written]
  | cons o ops ih =>
    rw [List.foldl_cons, ih]
    cases o <;>
      simp [Exchange.op, Exchange.WriteHeader, Exchange.Write, Exchange.SetHeader,
        responseWriter.WriteHeader, responseWriter.Write, WriterOp.writes]

theorem WebGo.Handler_proceeds {S : Type}
    (handler : context S → Nat → Heap S → Outcome (Heap S)) (ctx : context S) (h h1 : Heap S)
    (hret : handler ctx ctx.Req h = Outcome.returned h1) :
    WebGo.Handler handler ctx h = Body.call ctx h1 Body.ret := by
  simp [WebGo.Handler, hret]

/-- C18 (handler adapter), as amended. With the foreign handler and the
continuation recording their invocations, the middleware `Handler(h)` invokes
`h` once, and afterwards calls the continuation if and only if `h` returned,
the writer passes the type assertion `rw.(defaultResponseWriter)`, and
`Written()` is false; `Func(fn)`, `UseHandler` and `UseFunc` are the same
middleware. On the `*responseWriter` that `ServeHTTP` hands to the chain,
`Written()` after a handler that makes the calls `ops` is true exactly when it
was true before or one of the calls is a `Write` or a `WriteHeader`; on the
writer underneath it the assertion fails. -/
theorem C18_handler_adapter {A W X : Type} (asDefault : A → W → Option Bool)
    (h : A → W → Outcome W) (done : A → W → Outcome W) (a : A) (t : List Event) (w : W)
    (c : app A W) (ops : List WriterOp) (r : Nat) (x : Exchange X) :
    ((helper.Handler (fun a1 tw => asDefault a1 tw.2) (probeHandler (Event.mw 0) h)).run
        (probeDone done) a (t, w)).world.1
      = t ++ Event.mw 0 ::
          (match h a w with
           | .returned w1 => if asDefault a w1 = some false then [Event.terminal] else []
           | .panicked _ _ => [])
    ∧ helper.Func asDefault h = helper.Handler asDefault h
    ∧ c.UseHandler asDefault h = c.Use (helper.Handler asDefault h)
    ∧ c.UseFunc asDefault h = c.Use (helper.Handler asDefault h)
    ∧ Exchange.asDefault ⟨WriterRef.wrapped, r⟩ (handlerOf ops ⟨WriterRef.wrapped, r⟩ x).world
        = some (x.rw.written || ops.any WriterOp.writes)
    ∧ Exchange.asDefault ⟨WriterRef.raw, r⟩ (handlerOf ops ⟨WriterRef.raw, r⟩ x).world
        = none := by
  refine ⟨?_, rfl, rfl, rfl, asDefault_handlerOf ops r x, rfl⟩
  simp only [Middleware.run, helper.Handler, probeHandler]
  cases hh : h a w with
  | panicked v w1 => simp [invoke, Outcome.world]
  | returned w1 =>
    simp only []
    cases hd : asDefault a w1 with
    | none => simp [invoke, Outcome.world]
    | some b =>
      cases b with
      | true => simp [invoke, Outcome.world]
      | false =>
        simp only [invoke, terminalK, probeDone]
        cases done a w1 <;> simp [Outcome.world]

/-- C18 as stated fails: the chain `[Handler(h)]`, with `h` a handler that
writes nothing, is executed on a response writer without the capability
`Written()` (the writer underneath the `*responseWriter`). Nothing has been
written to the response when `h` returns, and yet the continuation, which
counts its invocations, is not called. On the `*responseWriter` the same chain
does call it. -/
theorem C18_handler_adapter_counterexample :
    (chainOf [helper.Handler Exchange.asDefault (handlerOf [])]).Execute Sample.count
        ⟨WriterRef.raw, 1⟩ Sample.fresh = Outcome.returned Sample.fresh
    ∧ Sample.fresh.rw.ResponseWriter.wroteHeader = false
    ∧ Sample.fresh.rw.ResponseWriter.body = []
    ∧ Sample.fresh.rw.Written = false
    ∧ Sample.fresh.ext = 0
    ∧ ((chainOf [helper.Handler Exchange.asDefault (handlerOf [])]).Execute Sample.count
        ⟨WriterRef.wrapped, 1⟩ Sample.fresh).world.ext = 1 := by
  decide


theorem Mem.Use_layout (ids : List Nat) (mw : Nat) :
    Mem.Use (Mem.layout ids) mw = some (Mem.layout (ids ++ [mw])) := by
  cases ids with
  | nil =>
    simp only [Mem.Use, Mem.layout, List.length_nil, if_true, List.nil_append,
      List.length_singleton, Option.some.injEq, Mem.Store.mk.injEq]
    refine ⟨?_, ?_⟩
    · funext i
      by_cases hi : i = 0
      · subst hi; simp
      · rw [Function.update_noteq hi]
        have h1 : ¬ i < 1 := by omega
        have h2 : [mw].length ≤ i := by simp; omega
        have h3 : [mw][i]? = none := List.getElem?_eq_none h2
        simp [h3, h1]
    · simp
  | cons x xs =>
    have hlen : (x :: xs).length ≠ 0 := by simp
    simp only [Mem.Use, Mem.layout, hlen, if_false, Option.some.injEq, Mem.Store.mk.injEq]
    refine ⟨?_, by simp, by simp, by simp⟩
    funext i
    simp only [Function.update_apply]
    by_cases h1 : i = (x :: xs).length - 1
    · have h2 : i ≠ (x :: xs).length := by simp at h1 ⊢; omega
      have h3 : i < (x :: xs).length := by simp at h1 ⊢; omega
      have h4 : (x :: xs).length - 1 ≠ (x :: xs).length := by simp
      rw [if_pos h1, if_neg h4]
      simp only [Mem.link.mk.injEq]
      constructor
      · rw [← h1, List.getD_append _ _ _ _ h3]
      · have h5 : i + 1 < (x :: xs ++ [mw]).length := by simp at h1 ⊢; omega
        rw [if_pos h5]
        simp at h1 ⊢
        omega
    · rw [if_neg h1]
      by_cases h2 : i = (x :: xs).length
      · rw [if_pos h2]
        subst h2
        simp [List.getD_append_right]
      · rw [if_neg h2]
        simp only [Mem.link.mk.injEq]
        constructor
        · by_cases h3 : i < (x :: xs).length
          · rw [List.getD_append _ _ _ _ h3]
          · have h5 : (x :: xs ++ [mw]).length ≤ i := by simp at h2 h3 ⊢; omega
            have h6 : (x :: xs).length ≤ i := by omega
            rw [List.getD_eq_default _ _ h5, List.getD_eq_default _ _ h6]
        · have h7 : (x :: xs ++ [mw]).length = (x :: xs).length + 1 := by simp
          rw [h7]
          by_cases h3 : i + 1 < (x :: xs).length
          · have h8 : i + 1 < (x :: xs).length + 1 := by omega
            rw [if_pos h3, if_pos h8]
          · have h8 : ¬ i + 1 < (x :: xs).length + 1 := by
              simp only [List.length_cons] at h1 h2 h3 ⊢
              omega
            rw [if_neg h3, if_neg h8]

theorem Mem.chainOf_layout (ids : List Nat) : Mem.chainOf ids = some (Mem.layout ids) := by
  induction ids using List.reverseRecOn with
  | nil => rfl
  | append_singleton l m ih =>
    unfold Mem.chainOf at ih ⊢
    rw [List.foldlM_append, ih]
    simp [Mem.Use_layout]

theorem Mem.ptr_end (n : Nat) : Mem.ptr n n = none := by
  simp [Mem.ptr]

theorem Mem.ptr_lt (n q : Nat) (h : q < n) : Mem.ptr n q = some q := by
  simp [Mem.ptr, h]

theorem cursor_eq {A W : Type} {m : Nat} (c1 c2 : Cursor A W m) (l : Link A W)
    (h1 : c1.1 = l) (h2 : c2.1 = l) : c1 = c2 :=
  Subtype.ext (h1.trans h2.symm)

theorem next_nil_cursor {A W R : Type} (done : Handler A W R) (raise : PanicValue → W → R)
    (m : Nat) (c : Cursor A W m) (hc : c.1 = []) (a : A) (w : W) (kont : W → Cursor A W m → R) :
    next done raise m c a w kont = done a w (fun w1 => kont w1 c) := by
  obtain ⟨l, hl⟩ := c
  simp only at hc
  subst hc
  cases m <;> simp [next]

theorem mem_next_ref {A W : Type} (code : Nat → Middleware A (Mem.Store × W))
    (done : A → Mem.Store × W → Outcome (Mem.Store × W)) (ids : List Nat)
    (hcode : ∀ i a s w, (code i a (s, w)).KeepsMem s)
    (hdone : ∀ a s w, (done a (s, w)).world.1 = s)
    (n p : Nat) (hp : p ≤ ids.length) (hn : ids.length - p ≤ n) (a : A) (w : W) :
    ∃ out q, p ≤ q ∧ q ≤ ids.length
      ∧ Mem.next code done n (Mem.ptr ids.length p) a (Mem.layout ids, w)
          = some (out, Mem.ptr ids.length q)
      ∧ out.world.1 = Mem.layout ids
      ∧ ∀ (m : Nat) (cp cq : Cursor A (Mem.Store × W) m),
          cp.1 = (ids.drop p).map code → cq.1 = (ids.drop q).map code →
          ∀ kont : Mem.Store × W → Cursor A (Mem.Store × W) m → Outcome (Mem.Store × W),
            next (terminalK done) Outcome.panicked m cp a (Mem.layout ids, w) kont
              = match out with
                | .returned sw1 => kont sw1 cq
                | .panicked v sw1 => .panicked v sw1 := by
  induction n generalizing p a w with
  | zero =>
    have hpe : p = ids.length := by omega
    subst hpe
    refine ⟨done a (Mem.layout ids, w), ids.length, le_refl _, le_refl _, ?_, hdone _ _ _, ?_⟩
    · rw [Mem.ptr_end]; rfl
    · intro m cp cq hcp hcq kont
      have h0 : (ids.drop ids.length).map code = [] := by simp
      rw [h0] at hcp hcq
      rw [next_nil_cursor _ _ m cp hcp, cursor_eq cq cp [] hcq hcp]
      simp only [terminalK]
      cases done a (Mem.layout ids, w) <;> rfl
  | succ n ih =>
    by_cases hpe : p = ids.length
    · subst hpe
      refine ⟨done a (Mem.layout ids, w), ids.length, le_refl _, le_refl _, ?_, hdone _ _ _, ?_⟩
      · rw [Mem.ptr_end]; rfl
      · intro m cp cq hcp hcq kont
        have h0 : (ids.drop ids.length).map code = [] := by simp
        rw [h0] at hcp hcq
        rw [next_nil_cursor _ _ m cp hcp, cursor_eq cq cp [] hcq hcp]
        simp only [terminalK]
        cases done a (Mem.layout ids, w) <;> rfl
    · have hlt : p < ids.length := by omega
      have hbody : ∀ (b : Body A (Mem.Store × W)), b.KeepsMem (Mem.layout ids) →
          ∀ q, q ≤ ids.length → ids.length - q ≤ n →
          ∃ out q1, q ≤ q1 ∧ q1 ≤ ids.length
            ∧ Mem.runBody (Mem.next code done n) b (Mem.ptr ids.length q)
                = some (out, Mem.ptr ids.length q1)
            ∧ out.world.1 = Mem.layout ids
            ∧ ∀ (m : Nat) (cq cq1 : Cursor A (Mem.Store × W) m),
                cq.1 = (ids.drop q).map code → cq1.1 = (ids.drop q1).map code →
                ∀ kont : Mem.Store × W → Cursor A (Mem.Store × W) m → Outcome (Mem.Store × W),
                  runBody Outcome.panicked (next (terminalK done) Outcome.panicked m) b cq kont
                    = match out with
                      | .returned sw1 => kont sw1 cq1
                      | .panicked v sw1 => .panicked v sw1 := by
        intro b
        induction b with
        | ret sw =>
          intro hb q hq hnq
          refine ⟨.returned sw, q, le_refl _, hq, rfl, hb, ?_⟩
          intro m cq cq1 hcq hcq1 kont
          rw [cursor_eq cq cq1 _ hcq hcq1]
          rfl
        | panic v sw =>
          intro hb q hq hnq
          exact ⟨.panicked v sw, q, le_refl _, hq, rfl, hb, fun m cq cq1 hcq hcq1 kont => rfl⟩
        | call a1 sw k ihk =>
          intro hb q hq hnq
          obtain ⟨s0, w0⟩ := sw
          obtain ⟨hs0, hk⟩ := hb
          simp only at hs0
          subst hs0
          obtain ⟨out1, q1, hqq1, hq1, hmem1, hw1, hlist1⟩ := ih q hq hnq a1 w0
          cases out1 with
          | panicked v sw1 =>
            refine ⟨.panicked v sw1, q1, hqq1, hq1, ?_, hw1, ?_⟩
            · simp only [Mem.runBody, hmem1]
            · intro m cq cq1 hcq hcq1 kont
              simp only [runBody]
              rw [hlist1 m cq cq1 hcq hcq1]
          | returned sw1 =>
            obtain ⟨s1, w1⟩ := sw1
            simp only [Outcome.world] at hw1
            subst hw1
            obtain ⟨out2, q2, hq12, hq2, hmem2, hw2, hlist2⟩ :=
              ihk (Mem.layout ids, w1) (hk w1) q1 hq1 (by omega)
            refine ⟨out2, q2, by omega, hq2, ?_, hw2, ?_⟩
            · simp only [Mem.runBody, hmem1]
              exact hmem2
            · intro m cq cq2 hcq hcq2 kont
              have hlen : ((ids.drop q1).map code).length ≤ m := by
                have := cq.2
                rw [hcq] at this
                simp only [List.length_map, List.length_drop] at this ⊢
                omega
              simp only [runBody]
              rw [hlist1 m cq ⟨(ids.drop q1).map code, hlen⟩ hcq rfl]
              exact hlist2 m ⟨(ids.drop q1).map code, hlen⟩ cq2 rfl hcq2 kont
      have hget : ids.getD p 0 = ids[p] := List.getD_eq_getElem _ _ hlt
      have hdrop : (ids.drop p).map code = code ids[p] :: (ids.drop (p + 1)).map code := by
        rw [List.drop_eq_getElem_cons hlt, List.map_cons]
      obtain ⟨out, q1, hpq1, hq1, hmem, hw, hlist⟩ :=
        hbody (code ids[p] a (Mem.layout ids, w)) (hcode _ _ _ _) (p + 1) hlt (by omega)
      refine ⟨out, q1, by omega, hq1, ?_, hw, ?_⟩
      · rw [Mem.ptr_lt _ _ hlt]
        simp only [Mem.next]
        rw [show ((Mem.layout ids).links p).middleware = ids[p] from hget]
        exact hmem
      · intro m cp cq hcp hcq kont
        obtain ⟨l, hl⟩ := cp
        simp only at hcp
        subst hcp
        cases m with
        | zero => rw [hdrop] at hl; simp at hl
        | succ m =>
          have hl1 : ((ids.drop (p + 1)).map code).length ≤ m := by
            have := hl
            rw [hdrop] at this
            simpa using this
          have hnext : next (terminalK done) Outcome.panicked (m + 1)
              ⟨(ids.drop p).map code, hl⟩ a (Mem.layout ids, w) kont
              = runBody Outcome.panicked (next (terminalK done) Outcome.panicked m)
                  (code ids[p] a (Mem.layout ids, w)) ⟨(ids.drop (p + 1)).map code, hl1⟩
                  (fun w1 link1 => kont w1 ⟨link1.1, Nat.le_succ_of_le link1.2⟩) := by
            revert hl
            rw [hdrop]
            intro hl
            rfl
          have hlen : ((ids.drop q1).map code).length ≤ m := by
            simp only [List.length_map, List.length_drop] at hl1 ⊢
            omega
          rw [hnext, hlist m _ ⟨(ids.drop q1).map code, hlen⟩ rfl rfl]
          cases out with
          | returned sw1 =>
            simp only
            rw [cursor_eq cq ⟨(ids.drop q1).map code, Nat.le_succ_of_le hlen⟩ _ hcq rfl]
          | panicked v sw1 => rfl

theorem Mem.layout_first (ids : List Nat) :
    (Mem.layout ids).first = Mem.ptr ids.length 0 := by
  cases ids <;> simp [Mem.layout, Mem.ptr]

theorem mem_Execute_ref {A W : Type} (code : Nat → Middleware A (Mem.Store × W))
    (done : A → Mem.Store × W → Outcome (Mem.Store × W)) (ids : List Nat)
    (hcode : ∀ i a s w, (code i a (s, w)).KeepsMem s)
    (hdone : ∀ a s w, (done a (s, w)).world.1 = s)
    (depth : Nat) (hdepth : ids.length ≤ depth) (a : A) (w : W) :
    ∃ out, Mem.Execute code done depth a (Mem.layout ids, w) = some out
      ∧ out.world.1 = Mem.layout ids
      ∧ out = (chainOf (ids.map code)).Execute done a (Mem.layout ids, w) := by
  obtain ⟨out, q, _, hq, hmem, hw, hlist⟩ :=
    mem_next_ref code done ids hcode hdone depth 0 (Nat.zero_le _) (by omega) a w
  refine ⟨out, ?_, hw, ?_⟩
  · simp only [Mem.Execute, Mem.layout_first, hmem, Option.map_some']
  · have hfirst : (chainOf (ids.map code)).first = (ids.drop 0).map code := by
      rw [first_chainOf, List.drop_zero]
    have hlen : ((ids.drop q).map code).length ≤ (chainOf (ids.map code)).first.length := by
      rw [hfirst]
      simp
    have h := hlist (chainOf (ids.map code)).first.length
      ⟨(chainOf (ids.map code)).first, Nat.le_refl _⟩ ⟨(ids.drop q).map code, hlen⟩ hfirst rfl
      (fun w1 _ => Outcome.returned w1)
    unfold app.Execute app.ExecuteK
    rw [h]
    cases out <;> rfl

/-- C21 (Execute does not change the chain). Let the chain be built in memory
by `New()` and `Use` of the middlewares `ids`, and let the middlewares and the
terminal handler not themselves write that memory. Then `Execute` returns (a
bound of the number of links on the depth of nesting is enough), and the
memory it leaves is the memory it found: the fields `first` and `last` of the
`app` and the fields `middleware` and `next` of every link are as before, the
cursor being a variable of the call. The run is that of the list of
middlewares `ids`, and so is the run of a second `Execute` that follows, with
whatever arguments: both traverse the same middlewares in the same order. -/
theorem C21_execute_keeps_chain {A W : Type} (code : Nat → Middleware A (Mem.Store × W))
    (done : A → Mem.Store × W → Outcome (Mem.Store × W)) (ids : List Nat)
    (hcode : ∀ i a s w, (code i a (s, w)).KeepsMem s)
    (hdone : ∀ a s w, (done a (s, w)).world.1 = s)
    (depth : Nat) (hdepth : ids.length ≤ depth) (a a2 : A) (w : W) :
    ∃ s out out2, Mem.chainOf ids = some s
      ∧ Mem.Execute code done depth a (s, w) = some out
      ∧ out.world.1 = s
      ∧ out = (chainOf (ids.map code)).Execute done a (s, w)
      ∧ Mem.Execute code done depth a2 out.world = some out2
      ∧ out2.world.1 = s
      ∧ out2 = (chainOf (ids.map code)).Execute done a2 out.world := by
  obtain ⟨out, h1, h2, h3⟩ := mem_Execute_ref code done ids hcode hdone depth hdepth a w
  have hout : out.world = (Mem.layout ids, out.world.2) := Prod.ext h2 rfl
  obtain ⟨out2, h4, h5, h6⟩ :=
    mem_Execute_ref code done ids hcode hdone depth hdepth a2 out.world.2
  rw [← hout] at h4 h6
  exact ⟨Mem.layout ids, out, out2, Mem.chainOf_layout ids, h1, h2, h3, h4, h5, h6⟩

/-- C21 at a chain of two middlewares that record their invocation and call
`next`, with a terminal handler that records its own: two successive calls of
`Execute` leave the log `mw 0, mw 1, terminal, mw 0, mw 1, terminal`. -/
theorem C21_execute_keeps_chain_witness :
    (∀ i a s w, (Sample.memCode i a (s, w)).KeepsMem s)
    ∧ (∀ a s w, (Sample.memDone a (s, w)).world.1 = s)
    ∧ [0, 1].length ≤ 2
    ∧ (Mem.chainOf [0, 1]).bind (fun s =>
        (Mem.Execute Sample.memCode Sample.memDone 2 () (s, [])).bind (fun o =>
          (Mem.Execute Sample.memCode Sample.memDone 2 () o.world).map (fun o2 => o2.world.2)))
      = some [Event.mw 0, Event.mw 1, Event.terminal, Event.mw 0, Event.mw 1, Event.terminal]
    ∧ ∃ s out out2, Mem.chainOf [0, 1] = some s
      ∧ Mem.Execute Sample.memCode Sample.memDone 2 () (s, []) = some out
      ∧ out.world.1 = s
      ∧ out = (chainOf ([0, 1].map Sample.memCode)).Execute Sample.memDone () (s, [])
      ∧ Mem.Execute Sample.memCode Sample.memDone 2 () out.world = some out2
      ∧ out2.world.1 = s
      ∧ out2 = (chainOf ([0, 1].map Sample.memCode)).Execute Sample.memDone () out.world :=
  have h1 : ∀ i a s w, (Sample.memCode i a (s, w)).KeepsMem s := by
    intro i a s w
    simp [Sample.memCode, Body.KeepsMem]
  have h2 : ∀ a s w, (Sample.memDone a (s, w)).world.1 = s := fun _ _ _ => rfl
  ⟨h1, h2, by decide, by decide,
    C21_execute_keeps_chain Sample.memCode Sample.memDone [0, 1] h1 h2 2 (by decide) () () []⟩


theorem Slice.append_elems {S : Type} (grow : Nat → Nat) (m : Arrays S) (s : Slice)
    (fn : BeforeResponseFunc S) :
    Slice.elems (Slice.append grow m s fn).2 (Slice.append grow m s fn).1
      = Slice.elems m s ++ [some fn] := by
  unfold Slice.append
  by_cases h : s.len < s.cap
  · simp only [if_pos h, Slice.elems, List.range_succ, List.map_append, List.map_cons,
      List.map_nil, and_self, if_true]
    congr 1
    apply List.map_congr_left
    intro i hi
    have : i ≠ s.len := by
      rw [List.mem_range] at hi
      omega
    simp [this]
  · simp only [if_neg h, Slice.elems, List.range_succ, List.map_append, List.map_cons,
      List.map_nil, if_true, lt_irrefl, if_false]
    congr 1
    apply List.map_congr_left
    intro i hi
    rw [List.mem_range] at hi
    simp [hi]

theorem Slice.append_overwrites {S : Type} (grow : Nat → Nat) (m : Arrays S) (s : Slice)
    (f g : BeforeResponseFunc S) (h : s.len < s.cap) :
    Slice.elems (Slice.append grow (Slice.append grow m s f).2 s g).2 (Slice.append grow m s f).1
      = Slice.elems m s ++ [some g] := by
  unfold Slice.append
  simp only [if_pos h, Slice.elems, List.range_succ, List.map_append, List.map_cons,
    List.map_nil, and_self, if_true]
  congr 1
  apply List.map_congr_left
  intro i hi
  have : i ≠ s.len := by
    rw [List.mem_range] at hi
    omega
  simp [this]

theorem Slice.append_apart {S : Type} (grow : Nat → Nat) (m : Arrays S) (s : Slice)
    (f g : BeforeResponseFunc S) (h : ¬ s.len < s.cap) :
    Slice.elems (Slice.append grow (Slice.append grow m s f).2 s g).2 (Slice.append grow m s f).1
      = Slice.elems m s ++ [some f] := by
  unfold Slice.append
  simp only [if_neg h, Slice.elems, List.range_succ, List.map_append, List.map_cons,
    List.map_nil, if_true, lt_irrefl, if_false]
  have hne : m.fresh ≠ m.fresh + 1 := by omega
  simp only [if_neg hne, if_true]
  congr 1
  apply List.map_congr_left
  intro i hi
  rw [List.mem_range] at hi
  simp [hi]

theorem slice_runBefore_some {S : Type} (fns : List (BeforeResponseFunc S)) (rw : Nat)
    (h : Heap S) : Slice.runBefore (fns.map some) rw h = some (runBefore fns rw h) := by
  induction fns generalizing h with
  | nil => rfl
  | cons fn fns ih => simp only [List.map_cons, Slice.runBefore, runBefore, ih]

theorem writeHeader_view {S : Type} (ws : Writers S) (m : Arrays S) (c : Slice.context)
    (fns : List (BeforeResponseFunc S)) (hv : Slice.elems m c.beforeFuncs = fns.map some)
    (code : Int) (h : Heap S) :
    c.WriteHeader ws m code h = some ((c.view fns).WriteHeader ws code h) := by
  simp only [Slice.context.WriteHeader, hv, slice_runBefore_some, Slice.context.view,
    context.WriteHeader]

theorem before_view {S : Type} (grow : Nat → Nat) (m : Arrays S) (c : Slice.context)
    (fns : List (BeforeResponseFunc S)) (hv : Slice.elems m c.beforeFuncs = fns.map some)
    (fn : BeforeResponseFunc S) :
    Slice.elems (c.Before grow fn m).2 (c.Before grow fn m).1.beforeFuncs
        = ((c.view fns).Before fn).beforeFuncs.map some
    ∧ (c.Before grow fn m).1.view (fns ++ [fn]) = (c.view fns).Before fn := by
  refine ⟨?_, rfl⟩
  simp only [Slice.context.Before, Slice.append_elems, hv, context.Before, Slice.context.view,
    List.map_append, List.map_cons, List.map_nil]

theorem befores_view {S : Type} (grow : Nat → Nat) (fns pre : List (BeforeResponseFunc S))
    (cm : Slice.context × Arrays S)
    (hv : Slice.elems cm.2 cm.1.beforeFuncs = pre.map some) :
    Slice.elems (Slice.context.Befores grow fns cm).2
        (Slice.context.Befores grow fns cm).1.beforeFuncs = (pre ++ fns).map some
    ∧ (Slice.context.Befores grow fns cm).1.view (pre ++ fns)
        = fns.foldl context.Before (cm.1.view pre) := by
  induction fns generalizing pre cm with
  | nil => simpa [Slice.context.Befores, Slice.context.view] using hv
  | cons fn fns ih =>
    have h1 := before_view grow cm.2 cm.1 pre hv fn
    have h2 := ih (pre ++ [fn]) (cm.1.Before grow fn cm.2)
      (by rw [h1.1]; simp [context.Before, Slice.context.view])
    simp only [List.append_assoc, List.singleton_append] at h2
    simp only [Slice.context.Befores, List.foldl_cons] at h2 ⊢
    refine ⟨h2.1, ?_⟩
    rw [h2.2, h1.2]

theorem single_context_exact {S : Type} (grow : Nat → Nat) (ws : Writers S)
    (fns : List (BeforeResponseFunc S)) (ctx rw r : Nat) (h0 h : Heap S) (m : Arrays S)
    (code : Int) :
    (Slice.context.Befores grow fns ((Slice.CreateContextWith ctx rw r h0).1, m)).1.WriteHeader ws
        (Slice.context.Befores grow fns ((Slice.CreateContextWith ctx rw r h0).1, m)).2 code h
      = some ((fns.foldl context.Before (CreateContextWith ctx rw r h0).1).WriteHeader ws code h) := by
  have hv : Slice.elems m (Slice.CreateContextWith ctx rw r h0).1.beforeFuncs
      = ([] : List (BeforeResponseFunc S)).map some := rfl
  obtain ⟨h1, h2⟩ := befores_view grow fns [] ((Slice.CreateContextWith ctx rw r h0).1, m) hv
  rw [writeHeader_view ws _ _ ([] ++ fns) h1, h2]
  rfl

/-- C12 (Evolve shares the hook list), evaluated on the slice in memory. Three
hooks are registered on `c`, whose slice then has length `3` and capacity `4`;
`d` is `c.Evolve(p)` or `c.WithValue(k, v)`; hook `3` is registered on `c` and
then hook `4` on `d`. Both `append`s write slot `3` of the one backing array:
`c.WriteHeader(200)` runs the hooks `0, 1, 2, 4`, and never hook `3`, which was
registered on `c`. With two hooks registered before the derivation the slice is
full, each `append` allocates an array of its own, and `c` runs `0, 1, 2` while
`d` runs `0, 1, 3`. In neither case do both contexts run both hooks. -/
theorem C12_hooks_aliased :
    Sample.derived (fun c => c.Evolve 9) 3
      = (some [CtxEvent.hook 0 1 0, CtxEvent.hook 1 1 0, CtxEvent.hook 2 1 0,
                CtxEvent.hook 4 1 0, CtxEvent.writeHeader 1 200 200],
         some [CtxEvent.hook 0 1 0, CtxEvent.hook 1 1 0, CtxEvent.hook 2 1 0,
                CtxEvent.hook 4 1 0, CtxEvent.writeHeader 1 200 200])
    ∧ Sample.derived (fun c => c.WithValue (fun p _ _ => p + 1) 5 6) 3
      = (some [CtxEvent.hook 0 1 0, CtxEvent.hook 1 1 0, CtxEvent.hook 2 1 0,
                CtxEvent.hook 4 1 0, CtxEvent.writeHeader 1 200 200],
         some [CtxEvent.hook 0 1 0, CtxEvent.hook 1 1 0, CtxEvent.hook 2 1 0,
                CtxEvent.hook 4 1 0, CtxEvent.writeHeader 1 200 200])
    ∧ Sample.derived (fun c => c.Evolve 9) 2
      = (some [CtxEvent.hook 0 1 0, CtxEvent.hook 1 1 0, CtxEvent.hook 2 1 0,
                CtxEvent.writeHeader 1 200 200],
         some [CtxEvent.hook 0 1 0, CtxEvent.hook 1 1 0, CtxEvent.hook 3 1 0,
                CtxEvent.writeHeader 1 200 200])
    ∧ (Sample.register (Slice.CreateContextWith 0 1 2 Sample.emptyHeap).1
        Sample.noArrays 0 3).1.beforeFuncs = ⟨2, 3, 4⟩ := by
  decide

end Web
